import Mathlib

/-!
# StructuredDataVersions: a shallow embedding

Source: `src/maidsafe/data_types/structured_data_version.cc` and
`include/maidsafe/data_types/structured_data_version.h`; for the process manager,
`src/maidsafe/vault_manager/process_manager.cc`.

Conventions of the embedding.

* A `VersionsItr` (an iterator into `versions_`) is the key of the entry it points at,
  `none` being `std::end(versions_)`.  Nothing in the source ever erases from `versions_`,
  so an iterator never dangles and the key identifies the entry.
* `std::map<VersionName, std::shared_ptr<Details>>` is an association list kept in key order;
  the `Details` are shared through the pointer, so pushing onto a parent's `children`
  updates the stored entry.
* `assert` is compiled out: `Get` asserts on a member (`child_count`) that `Details` does not
  have, so the translation unit only builds with `NDEBUG`.  The asserted conditions are given
  as separate predicates.
* A call either returns, throws a `CommonErrors` value, or dereferences `std::end(versions_)`,
  which is undefined behaviour and is kept as an outcome of its own.
* The deserialising constructor value-initialises `root_`, which leaves `root_.second`
  singular; the object it builds has a type of its own (`DeserialisedVersions`).
-/

namespace maidsafe

/-- Error codes of `maidsafe/common/error.h` that the sources under study throw. -/
inductive CommonErrors where
  | invalid_parameter
  | cannot_exceed_limit
  | parsing_error
  | no_such_element
  | already_initialised
deriving DecidableEq, Repr

/-- Outcome of a call of a const member function. -/
inductive Outcome (α : Type) where
  | returned (value : α)
  | threw (error : CommonErrors)
  | undefined
deriving DecidableEq, Repr

/-- Modelled from the spec: `ImmutableData::name_type` is declared outside the sources at hand;
the spec describes it as an opaque, totally ordered, fixed-size key plus a "not yet set" state.
`none` is the uninitialised identity, `some k` an initialised one with key `k`. -/
abbrev Identity := Option Nat

/-- Member `IsInitialised()` of the identity, as used in `id->IsInitialised()`. -/
def Identity.IsInitialised (id : Identity) : Bool := id.isSome

/-- Strict order on identities: the uninitialised identity is below every initialised one. -/
def Identity.lt : Identity → Identity → Bool
  | none, some _ => true
  | some a, some b => decide (a < b)
  | _, none => false

/-- The struct `VersionName`: `uint64_t index; ImmutableData::name_type id;`. -/
structure VersionName where
  index : Nat
  id : Identity
deriving DecidableEq, Repr

/-- Constructor `VersionName::VersionName()`: index is
`std::numeric_limits<uint64_t>::max()`, id is default constructed (uninitialised). -/
def VersionName.default_ctor : VersionName := { index := 2 ^ 64 - 1, id := none }

/-- Constructor `VersionName::VersionName(uint32_t index_in, const ImmutableData::name_type&
id_in)`: the index is a 32-bit argument stored in the 64-bit member. -/
def VersionName.ctor (index_in : Nat) (id_in : Identity) : VersionName :=
  { index := index_in % 2 ^ 32, id := id_in }

/-- Source `operator==`: `std::tie(lhs.index, lhs.id) == std::tie(rhs.index, rhs.id)`. -/
def VersionName.eq (lhs rhs : VersionName) : Bool :=
  decide (lhs.index = rhs.index) && decide (lhs.id = rhs.id)

/-- Source `operator!=`. -/
def VersionName.ne (lhs rhs : VersionName) : Bool := !VersionName.eq lhs rhs

/-- Source `operator<`: `std::tie(lhs.index, lhs.id) < std::tie(rhs.index, rhs.id)`, the
lexicographic comparison of the two pairs. -/
def VersionName.lt (lhs rhs : VersionName) : Bool :=
  if lhs.index < rhs.index then true
  else if rhs.index < lhs.index then false
  else Identity.lt lhs.id rhs.id

/-- Source `operator>`. -/
def VersionName.gt (lhs rhs : VersionName) : Bool := VersionName.lt rhs lhs

/-- Source `operator<=`. -/
def VersionName.le (lhs rhs : VersionName) : Bool := !VersionName.gt lhs rhs

/-- Source `operator>=`. -/
def VersionName.ge (lhs rhs : VersionName) : Bool := !VersionName.lt lhs rhs

/-- Iterator type `VersionsItr`: `none` is `std::end(versions_)`, `some k` points at the
entry with key `k`. -/
abbrev VersionsItr := Option VersionName

/-- The struct `Details`: `VersionsItr parent; std::vector<VersionsItr> children;`. -/
structure Details where
  parent : VersionsItr
  children : List VersionName
deriving DecidableEq, Repr

/-- Constructor `Details::Details()`. -/
def Details.ctor : Details := { parent := none, children := [] }

/-- The typedef `std::map<VersionName, std::shared_ptr<Details>> Versions`. -/
abbrev Versions := List (VersionName × Details)

/-- Lookup `versions_.find(name)`: the details stored under `name`, `none` for `end()`. -/
def Versions.find : Versions → VersionName → Option Details
  | [], _ => none
  | (k, d) :: rest, name => if k = name then some d else Versions.find rest name

/-- Insertion `versions_.insert(version)`: keeps key order; an entry with an equivalent key
is left as it is. -/
def Versions.insert : Versions → VersionName → Details → Versions
  | [], name, d => [(name, d)]
  | (k, d0) :: rest, name, d =>
    if VersionName.lt name k then (name, d) :: (k, d0) :: rest
    else if VersionName.lt k name then (k, d0) :: Versions.insert rest name d
    else (k, d0) :: rest

/-- The statement `parent->second->children.push_back(child)` for the entry with key `parent`. -/
def Versions.push_back_child : Versions → VersionName → VersionName → Versions
  | [], _, _ => []
  | (k, d) :: rest, parent, child =>
    if k = parent then (k, { d with children := d.children ++ [child] }) :: rest
    else (k, d) :: Versions.push_back_child rest parent child

/-- The typedef `std::multimap<VersionName, VersionsItr> Orphans`: pairs of the missing parent's
name and the orphan waiting for it. -/
abbrev Orphans := List (VersionName × VersionName)

/-- Range `orphans_.equal_range(name)`: the entries keyed by `name`, in container order. -/
def Orphans.equal_range (orphans : Orphans) (name : VersionName) : Orphans :=
  orphans.filter (fun entry => decide (entry.1 = name))

/-- Data members of `class StructuredDataVersions`. -/
structure StructuredDataVersions where
  max_versions_ : Nat
  max_branches_ : Nat
  versions_ : Versions
  root_ : VersionName × VersionsItr
  tips_of_trees_ : List VersionName
  orphans_ : Orphans
deriving DecidableEq, Repr

/-- Outcome of a call of a mutating member function, with the object as the call leaves it. -/
inductive Result where
  | returned (after : StructuredDataVersions)
  | threw (error : CommonErrors) (after : StructuredDataVersions)
  | undefined
deriving DecidableEq, Repr

/-- Constructor `StructuredDataVersions::StructuredDataVersions(uint32_t max_versions,
uint32_t max_branches)`. -/
def StructuredDataVersions.ctor (max_versions max_branches : Nat) :
    Outcome StructuredDataVersions :=
  if max_versions < 1 ∨ max_branches < 1 then .threw .invalid_parameter
  else .returned
    { max_versions_ := max_versions
      max_branches_ := max_branches
      versions_ := []
      root_ := (VersionName.default_ctor, none)
      tips_of_trees_ := []
      orphans_ := [] }

/-- Member `StructuredDataVersions::RootParentName`. -/
def RootParentName (s : StructuredDataVersions) : VersionName := s.root_.1

/-- Member `StructuredDataVersions::NewVersionPreExists`.  The expression
`existing_itr->second->parent->first` dereferences the parent iterator, which is `end()` for a
version stored without a parent. -/
def NewVersionPreExists (s : StructuredDataVersions) (old_version new_version : VersionName) :
    Outcome Bool :=
  match s.versions_.find new_version with
  | none => .returned false
  | some existing =>
    match existing.parent with
    | none => .undefined
    | some parent_name =>
      if VersionName.eq parent_name old_version then .returned true
      else .threw .invalid_parameter

/-- Condition asserted on entry of `AtVersionsLimit`. -/
def VersionsLimitAssertion (s : StructuredDataVersions) : Prop :=
  s.versions_.length ≤ s.max_versions_

instance (s : StructuredDataVersions) : Decidable (VersionsLimitAssertion s) :=
  inferInstanceAs (Decidable (s.versions_.length ≤ s.max_versions_))

/-- Condition asserted on entry of `AtBranchesLimit`. -/
def BranchesLimitAssertion (s : StructuredDataVersions) : Prop :=
  s.tips_of_trees_.length ≤ s.max_branches_

instance (s : StructuredDataVersions) : Decidable (BranchesLimitAssertion s) :=
  inferInstanceAs (Decidable (s.tips_of_trees_.length ≤ s.max_branches_))

/-- Member `StructuredDataVersions::AtVersionsLimit`. -/
def AtVersionsLimit (s : StructuredDataVersions) : Bool :=
  decide (s.versions_.length = s.max_versions_)

/-- Member `StructuredDataVersions::AtBranchesLimit`. -/
def AtBranchesLimit (s : StructuredDataVersions) : Bool :=
  decide (s.tips_of_trees_.length = s.max_branches_)

/-- Lines 215-217 of `Put`: `versions_.insert(version)` and, for a version that is neither
root nor orphan (its `parent` then points at a stored entry), the `push_back` onto the
parent's `children`.  The source stops here: the comments "do unorphaning" and "mark as root"
are all that follows, and the local `erase_existing_root` is never read. -/
def PutCommit (s : StructuredDataVersions) (new_version : VersionName) (version : Details)
    (is_root is_orphan : Bool) : StructuredDataVersions :=
  let inserted := s.versions_.insert new_version version
  match version.parent with
  | some parent_name =>
    if !is_root && !is_orphan then
      { s with versions_ := Versions.push_back_child inserted parent_name new_version }
    else { s with versions_ := inserted }
  | none => { s with versions_ := inserted }

/-- Lines 202-213 of `Put`: the branches-limit test.  Returns the updated
`erase_existing_root`, throws `cannot_exceed_limit`, or dereferences `end()` when the new
version is a root (its `parent` is `end()` and `is_orphan` is false). -/
def PutBranchesLimit (s : StructuredDataVersions) (version : Details) (is_orphan : Bool)
    (unorphaned_count : Nat) (erase_existing_root : Bool) : Outcome Bool :=
  let root_is_tip_of_tree : Outcome Bool :=
    match s.root_.2 with
    | none => .returned false
    | some root_name =>
      match s.versions_.find root_name with
      | none => .undefined
      | some root_details => .returned root_details.children.isEmpty
  let exceeds : Outcome Bool :=
    match root_is_tip_of_tree with
    | .returned true => .returned true
    | .returned false => .threw .cannot_exceed_limit
    | .threw e => .threw e
    | .undefined => .undefined
  if AtBranchesLimit s && decide (unorphaned_count = 0) then
    if is_orphan then exceeds
    else
      match version.parent with
      | none => .undefined
      | some parent_name =>
        match s.versions_.find parent_name with
        | none => .undefined
        | some parent_details =>
          if !parent_details.children.isEmpty then exceeds
          else .returned erase_existing_root
  else .returned erase_existing_root

/-- Member `StructuredDataVersions::Put`. -/
def Put (s : StructuredDataVersions) (old_version new_version : VersionName) : Result :=
  match NewVersionPreExists s old_version new_version with
  | .undefined => .undefined
  | .threw e => .threw e s
  | .returned true => .returned s
  | .returned false =>
    let is_root : Bool := !old_version.id.IsInitialised
    if is_root && s.root_.2.isSome && !(RootParentName s).id.IsInitialised then
      .threw .invalid_parameter s
    else
      let orphans_range := s.orphans_.equal_range new_version
      let version : Details :=
        { parent := if is_root then none
                    else (s.versions_.find old_version).map (fun _ => old_version)
          children := orphans_range.map (fun entry => entry.2) }
      let is_orphan : Bool := version.parent.isNone && !is_root
      let unorphaned_count := orphans_range.length
      let unorphans_existing_root : Bool :=
        s.root_.1.id.IsInitialised && VersionName.eq (RootParentName s) old_version
      if AtVersionsLimit s && (unorphans_existing_root || is_root) then .returned s
      else
        match PutBranchesLimit s version is_orphan unorphaned_count (AtVersionsLimit s) with
        | .undefined => .undefined
        | .threw e => .threw e s
        | .returned _ => .returned (PutCommit s new_version version is_root is_orphan)

/-- Member `StructuredDataVersions::Get`. -/
def Get (s : StructuredDataVersions) : List VersionName := s.tips_of_trees_

/-- Member `StructuredDataVersions::GetBranch`: the body is commented out apart from the
declaration of the empty `result` and its return. -/
def GetBranch (_s : StructuredDataVersions) (_branch_tip : VersionName) :
    Outcome (List VersionName) :=
  .returned []

/-- Member `StructuredDataVersions::DeleteBranchUntilFork`: the whole body is commented out. -/
def DeleteBranchUntilFork (s : StructuredDataVersions) (_branch_tip : VersionName) : Result :=
  .returned s

/-- Member `StructuredDataVersions::clear`. -/
def clear (s : StructuredDataVersions) : StructuredDataVersions :=
  { s with
    versions_ := []
    root_ := (VersionName.default_ctor, none)
    tips_of_trees_ := []
    orphans_ := [] }

/-- Value of the member `root_.second` as a constructor leaves it: an iterator into
`versions_`, or the singular iterator that value-initialisation (`root_()`) gives, which
belongs to no container and is not `std::end(versions_)`. -/
inductive RootSecond where
  | singular
  | iterator (itr : VersionsItr)
deriving DecidableEq, Repr

/-- Data members of the object that the deserialising constructor builds.  They are the
members of `class StructuredDataVersions`; `root_.second` is singular in such an object, a
value that `StructuredDataVersions` (objects of the two-limit constructor, `Put` and `clear`)
does not have, so the object is kept in a type of its own and no member function is applied
to it. -/
structure DeserialisedVersions where
  max_versions_ : Nat
  max_branches_ : Nat
  versions_ : Versions
  root_ : VersionName × RootSecond
  tips_of_trees_ : List VersionName
  orphans_ : Orphans
deriving DecidableEq, Repr

/-- Constructor `StructuredDataVersions::StructuredDataVersions(const serialised_type&)`:
every member is value-initialised (`max_versions_()`, `max_branches_()`, `versions_()`,
`root_()`, `tips_of_trees_()`, `orphans_()`) and the string is parsed; nothing is read from the
parsed message.  `ParseFromString` belongs to the generated protobuf class, which is not among
the sources, and is a parameter. -/
def StructuredDataVersions.ctor_serialised (ParseFromString : String → Bool)
    (serialised_data_versions : String) : Outcome DeserialisedVersions :=
  if !ParseFromString serialised_data_versions then .threw .parsing_error
  else .returned
    { max_versions_ := 0
      max_branches_ := 0
      versions_ := []
      root_ := (VersionName.default_ctor, .singular)
      tips_of_trees_ := []
      orphans_ := [] }

/-- Member `StructuredDataVersions::ApplySerialised`: constructs the local `new_info` and
returns. -/
def ApplySerialised (ParseFromString : String → Bool) (s : StructuredDataVersions)
    (serialised_data_versions : String) : Result :=
  match StructuredDataVersions.ctor_serialised ParseFromString serialised_data_versions with
  | .returned _ => .returned s
  | .threw e => .threw e s
  | .undefined => .undefined

/-- The object after a call that returned or threw. -/
def Result.object? : Result → Option StructuredDataVersions
  | .returned after => some after
  | .threw _ after => some after
  | .undefined => none

/-- The error of a call that threw. -/
def Result.error? : Result → Option CommonErrors
  | .threw e _ => some e
  | _ => none

/-- A call of one of the public mutators that can throw. -/
inductive MutatorCall where
  | Put (old_version new_version : VersionName)
  | DeleteBranchUntilFork (branch_tip : VersionName)
  | ApplySerialised (serialised_data_versions : String)
deriving DecidableEq, Repr

/-- Runs a mutator call on an object. -/
def MutatorCall.run (ParseFromString : String → Bool) (s : StructuredDataVersions) :
    MutatorCall → Result
  | .Put old_version new_version => maidsafe.Put s old_version new_version
  | .DeleteBranchUntilFork branch_tip => maidsafe.DeleteBranchUntilFork s branch_tip
  | .ApplySerialised serialised_data_versions =>
    maidsafe.ApplySerialised ParseFromString s serialised_data_versions

/-- Objects reachable from a successful construction by calls of `Put` that return or throw. -/
inductive Reachable : StructuredDataVersions → Prop where
  | constructed (max_versions max_branches : Nat) (s : StructuredDataVersions) :
      StructuredDataVersions.ctor max_versions max_branches = .returned s → Reachable s
  | put_returned (s : StructuredDataVersions) (old_version new_version : VersionName)
      (after : StructuredDataVersions) :
      Reachable s → Put s old_version new_version = .returned after → Reachable after
  | put_threw (s : StructuredDataVersions) (old_version new_version : VersionName)
      (e : CommonErrors) (after : StructuredDataVersions) :
      Reachable s → Put s old_version new_version = .threw e after → Reachable after

/-- Stored versions whose child list is empty, in container order. -/
def childless (s : StructuredDataVersions) : List VersionName :=
  (s.versions_.filter (fun entry => entry.2.children.isEmpty)).map (fun entry => entry.1)

/-- Version name written `0-a` in the specification's scenarios. -/
def name_0_a : VersionName := VersionName.ctor 0 (some 1)

/-- Version name written `0-b`. -/
def name_0_b : VersionName := VersionName.ctor 0 (some 2)

/-- Version name written `0-x`. -/
def name_0_x : VersionName := VersionName.ctor 0 (some 24)

/-- Version name written `1-b`. -/
def name_1_b : VersionName := VersionName.ctor 1 (some 2)

/-- Version name written `2-c`. -/
def name_2_c : VersionName := VersionName.ctor 2 (some 3)

/-- The object with limits (10,10) after `Put(VersionName(), 0-a)` and `Put(0-a, 1-b)`: `0-a`
is stored without a parent and with the child `1-b`. -/
def forest_0a_1b : StructuredDataVersions :=
  { max_versions_ := 10
    max_branches_ := 10
    versions_ := [(name_0_a, { parent := none, children := [name_1_b] }),
                  (name_1_b, { parent := some name_0_a, children := [] })]
    root_ := (VersionName.default_ctor, none)
    tips_of_trees_ := []
    orphans_ := [] }

/-- Accessor `max_versions()` of the header. -/
def max_versions (s : StructuredDataVersions) : Nat := s.max_versions_

/-- Accessor `max_branches()` of the header. -/
def max_branches (s : StructuredDataVersions) : Nat := s.max_branches_

/-- Specification-level notion, used to state claims only: the chain of parent links from
`name` upwards, `name` first, ending with the first version that has no parent link.  It is
the loop left commented out in `GetBranch`; `fuel` bounds the number of links followed. -/
def parent_chain (versions : Versions) : Nat → VersionName → List VersionName
  | 0, _ => []
  | fuel + 1, name =>
    match versions.find name with
    | none => []
    | some details =>
      match details.parent with
      | none => [name]
      | some parent_name => name :: parent_chain versions fuel parent_name

/-- Version name written `1-c`. -/
def name_1_c : VersionName := VersionName.ctor 1 (some 3)

/-- Version name written `5-x`. -/
def name_5_x : VersionName := VersionName.ctor 5 (some 24)

/-- Version name written `6-y`. -/
def name_6_y : VersionName := VersionName.ctor 6 (some 25)

/-- Version name written `7-y` (the header diagram's `7-yyy`). -/
def name_7_y : VersionName := VersionName.ctor 7 (some 25)

/-- Version name written `8-z` (the header diagram's `8-zzz`). -/
def name_8_z : VersionName := VersionName.ctor 8 (some 26)

/-- The object with limits (10,10) after `Put(VersionName(), 0-a)`, `Put(0-a, 1-b)` and
`Put(0-a, 1-c)`: `0-a` has the two children `1-b` and `1-c`. -/
def forest_fork : StructuredDataVersions :=
  { max_versions_ := 10
    max_branches_ := 10
    versions_ := [(name_0_a, { parent := none, children := [name_1_b, name_1_c] }),
                  (name_1_b, { parent := some name_0_a, children := [] }),
                  (name_1_c, { parent := some name_0_a, children := [] })]
    root_ := (VersionName.default_ctor, none)
    tips_of_trees_ := []
    orphans_ := [] }

/-- The object with limits (1,5) after `Put(5-x, 6-y)`: `6-y` is stored without a parent and
the store is at its versions limit. -/
def forest_full_6y : StructuredDataVersions :=
  { max_versions_ := 1
    max_branches_ := 5
    versions_ := [(name_6_y, { parent := none, children := [] })]
    root_ := (VersionName.default_ctor, none)
    tips_of_trees_ := []
    orphans_ := [] }

/-- The value a call returned, if it returned. -/
def Outcome.value? {α : Type} : Outcome α → Option α
  | .returned value => some value
  | _ => none

/-- Member `StructuredDataVersions::Serialise`: a message is default constructed, nothing is
written to it, and its serialisation is wrapped.  `SerializeAsString` of the generated
protobuf class and the `NonEmptyString` constructor are not among the sources; the string a
default-constructed message serialises to and the constructor are parameters.  The object
itself is not read. -/
def Serialise (NonEmptyString : String → Outcome String) (default_message : String)
    (_s : StructuredDataVersions) : Outcome String :=
  NonEmptyString default_message

/-- The expression `StructuredDataVersions(X.Serialise())`. -/
def SerialiseThenConstruct (ParseFromString : String → Bool)
    (NonEmptyString : String → Outcome String) (default_message : String)
    (s : StructuredDataVersions) : Outcome DeserialisedVersions :=
  match Serialise NonEmptyString default_message s with
  | .returned serialised => StructuredDataVersions.ctor_serialised ParseFromString serialised
  | .threw e => .threw e
  | .undefined => .undefined

/-- Version name with index 0 and a default-constructed (uninitialised) identity. -/
def name_0_uninitialised : VersionName := VersionName.ctor 0 none

/-- Specification-level notion, used to state claims only: follows the parent links from
`name` upwards and returns the versions visited, `name` first, once a version without a parent
link is reached; `none` when that does not happen within `fuel` lookups or a link leads to
a name that is not stored. -/
def parent_walk (versions : Versions) : Nat → VersionName → Option (List VersionName)
  | 0, _ => none
  | fuel + 1, name =>
    match versions.find name with
    | none => none
    | some details =>
      match details.parent with
      | none => some [name]
      | some parent_name =>
        (parent_walk versions fuel parent_name).map (fun chain => name :: chain)

/-- Parent and child links agree: a version with a parent link has that parent stored and
occurs exactly once among the parent's children, and every child of a stored version is
stored with a parent link to it. -/
def LinksConsistent (versions : Versions) : Prop :=
  (∀ c d p, versions.find c = some d → d.parent = some p →
    ∃ dp, versions.find p = some dp ∧ dp.children.count c = 1) ∧
  (∀ p dp c, versions.find p = some dp → c ∈ dp.children →
    ∃ dc, versions.find c = some dc ∧ dc.parent = some p)

/-- A numbering of the stored versions below the number of entries in which every parent link
leads to a stored version with a smaller number. -/
def ParentsRanked (versions : Versions) (rank : VersionName → Nat) : Prop :=
  ∀ v d, versions.find v = some d →
    rank v < versions.length ∧
      ∀ p, d.parent = some p → (∃ dp, versions.find p = some dp) ∧ rank p < rank v

/-- The `for` loop of `CheckVersionNotInBranch` over the children of one version; `recurse`
is the recursive call on a child.  The loop ends at the first child that throws. -/
def CheckChildren (recurse : VersionName → Option (Outcome Unit)) (version : VersionName) :
    List VersionName → Option (Outcome Unit)
  | [] => some (.returned ())
  | child :: rest =>
    if VersionName.eq child version then some (.threw .invalid_parameter)
    else
      match recurse child with
      | some (.returned _) => CheckChildren recurse version rest
      | other => other

/-- Member `StructuredDataVersions::CheckVersionNotInBranch`.  The recursion depth is bounded
by `fuel`; the result is `none` when the bound is hit.  An `itr` that points at no stored
entry cannot be dereferenced. -/
def CheckVersionNotInBranch (versions : Versions) :
    Nat → VersionName → VersionName → Option (Outcome Unit)
  | 0, _, _ => none
  | fuel + 1, itr, version =>
    match versions.find itr with
    | none => some .undefined
    | some details =>
      CheckChildren (fun child => CheckVersionNotInBranch versions fuel child version) version
        details.children

/-- The `for` loop of `GetUnorphanGroup` over the orphans in the range; `check` is the call of
`CheckVersionNotInBranch` on an orphan. -/
def CheckOrphans (check : VersionName → Option (Outcome Unit)) :
    Orphans → Option (Outcome Unit)
  | [] => some (.returned ())
  | entry :: rest =>
    match check entry.2 with
    | some (.returned _) => CheckOrphans check rest
    | other => other

/-- Member `StructuredDataVersions::GetUnorphanGroup`; `fuel` bounds the recursion depth of
each call of `CheckVersionNotInBranch`. -/
def GetUnorphanGroup (s : StructuredDataVersions) (fuel : Nat)
    (version : VersionName × Details) : Option (Outcome Orphans) :=
  let orphans_range := s.orphans_.equal_range version.1
  match CheckOrphans
      (fun orphan => CheckVersionNotInBranch s.versions_ fuel orphan version.1)
      orphans_range with
  | some (.returned _) => some (.returned orphans_range)
  | some (.threw e) => some (.threw e)
  | some .undefined => some .undefined
  | none => none

/-- Specification-level notion: `v` is a proper descendant of `n` through child links. -/
inductive Descendant (versions : Versions) : VersionName → VersionName → Prop where
  | child (n : VersionName) (d : Details) (c : VersionName) :
      versions.find n = some d → c ∈ d.children → Descendant versions n c
  | step (n : VersionName) (d : Details) (c v : VersionName) :
      versions.find n = some d → c ∈ d.children → Descendant versions c v →
      Descendant versions n v

/-- Specification-level notion: the child links are acyclic, no version is its own proper
descendant. -/
def ChildLinksAcyclic (versions : Versions) : Prop :=
  ∀ n, ¬ Descendant versions n n

/-- Every entry of a child list is a stored version: the iterators held in `children` are
valid. -/
def ChildLinksStored (versions : Versions) : Prop :=
  ∀ n d c, versions.find n = some d → c ∈ d.children → ∃ dc, versions.find c = some dc

/-- A forest with an orphan: `1-b`, waiting for the missing parent `0-a`, has the child
`2-c`. -/
def forest_orphan_branch : StructuredDataVersions :=
  { max_versions_ := 10
    max_branches_ := 10
    versions_ := [(name_1_b, { parent := none, children := [name_2_c] }),
                  (name_2_c, { parent := some name_1_b, children := [] })]
    root_ := (VersionName.default_ctor, none)
    tips_of_trees_ := [name_2_c]
    orphans_ := [(name_0_a, name_1_b)] }

/-- Handle of a child process (`boost::process::child`), identified by its pid. -/
structure Process where
  pid : Nat
deriving DecidableEq, Repr

/-- The struct `VaultInfo` of the vault manager.  Its declaration is not among the sources;
the fields are those `process_manager.cc` reads or writes. -/
structure VaultInfo where
  chunkstore_path : String
  process_args : List String
  process : Process
  stop_process : Bool
  tcp_connection : Nat
deriving DecidableEq, Repr

/-- Data member `vaults_` of `class ProcessManager`, together with the processes started so
far through `boost::process::execute`, oldest first.  The second field is not a member of the
class: it records the effect of `execute` so that "a process is started" can be stated.  The
mutex and the condition variable are left out (calls are taken one at a time). -/
structure ProcessManager where
  vaults_ : List VaultInfo
  started : List Process
deriving DecidableEq, Repr

/-- Outcome of a call of a member function of `ProcessManager`, with the object as the call
leaves it: it returns, throws a `CommonErrors` value, lets the exception of
`boost::process::execute` (initializer `throw_on_error`) through, or is undefined. -/
inductive ProcessManagerResult where
  | returned (after : ProcessManager)
  | threw (error : CommonErrors) (after : ProcessManager)
  | execute_threw (after : ProcessManager)
  | undefined
deriving DecidableEq, Repr

/-- The object after a call of a member function of `ProcessManager`. -/
def ProcessManagerResult.object? : ProcessManagerResult → Option ProcessManager
  | .returned after => some after
  | .threw _ after => some after
  | .execute_threw after => some after
  | .undefined => none

/-- The function `IsRunning` of the unnamed namespace: `process::IsRunning` on the vault's
process, with every exception turned into `false`.  `process::IsRunning` belongs to
`maidsafe/common/process.h`, which is not among the sources, and is a parameter; `none`
stands for a thrown exception. -/
def IsRunning (process_IsRunning : Process → Option Bool) (vault_info : VaultInfo) : Bool :=
  match process_IsRunning vault_info.process with
  | some running => running
  | none => false

/-- Member `ProcessManager::StartProcess`; `itr` is the position in `vaults_`.
`boost::process::execute` is a parameter: it gets the executable (`process_args.front()`)
and the arguments, and gives the child process or `none` when it throws. -/
def ProcessManager.StartProcess (execute : String → List String → Option Process)
    (s : ProcessManager) (itr : Nat) : ProcessManagerResult :=
  match s.vaults_[itr]? with
  | none => .undefined
  | some vault_info =>
    if !vault_info.stop_process then
      match vault_info.process_args.head? with
      | none => .undefined
      | some executable =>
        match execute executable vault_info.process_args with
        | none => .execute_threw s
        | some child =>
          .returned
            { vaults_ := s.vaults_.set itr { vault_info with process := child }
              started := s.started ++ [child] }
    else .returned s

/-- The statement `vaults_.emplace(std::end(vaults_), std::move(vault_info))`. -/
def ProcessManager.emplace_end (s : ProcessManager) (vault_info : VaultInfo) : ProcessManager :=
  { s with vaults_ := s.vaults_ ++ [vault_info] }

/-- Member `ProcessManager::AddProcess`. -/
def ProcessManager.AddProcess (process_IsRunning : Process → Option Bool)
    (execute : String → List String → Option Process) (s : ProcessManager)
    (vault_info : VaultInfo) : ProcessManagerResult :=
  if vault_info.chunkstore_path.isEmpty || vault_info.process_args.isEmpty then
    .threw .invalid_parameter s
  else if IsRunning process_IsRunning vault_info then
    .threw .already_initialised s
  else
    ProcessManager.StartProcess execute (s.emplace_end vault_info) s.vaults_.length

/-- A vault with a chunkstore path and a command line, not yet started. -/
def vault_ready : VaultInfo :=
  { chunkstore_path := "/tmp/chunks"
    process_args := ["vault", "--chunk_path", "/tmp/chunks"]
    process := { pid := 0 }
    stop_process := false
    tcp_connection := 0 }

/-- The vault `vault_ready` without a chunkstore path. -/
def vault_no_chunkstore : VaultInfo := { vault_ready with chunkstore_path := "" }

/-- The process manager as constructed: no vaults, no process started. -/
def ProcessManager.ctor : ProcessManager := { vaults_ := [], started := [] }

end maidsafe

namespace maidsafe

/-! ## Lemmas on `Put` -/

/-- A call of `Put` that throws leaves the object as it was. -/
theorem Put_threw_after (s : StructuredDataVersions) (old_version new_version : VersionName)
    (e : CommonErrors) (after : StructuredDataVersions)
    (h : Put s old_version new_version = .threw e after) : after = s := by
  unfold Put at h
  split at h
  · cases h
  · cases h; rfl
  · cases h
  · simp only at h
    split at h
    · cases h; rfl
    · split at h
      · cases h
      · split at h
        · cases h
        · cases h; rfl
        · cases h

/-- The commit step of `Put` writes to `versions_` only. -/
theorem PutCommit_frame (s : StructuredDataVersions) (new_version : VersionName)
    (version : Details) (is_root is_orphan : Bool) :
    (PutCommit s new_version version is_root is_orphan).max_versions_ = s.max_versions_ ∧
      (PutCommit s new_version version is_root is_orphan).max_branches_ = s.max_branches_ ∧
      (PutCommit s new_version version is_root is_orphan).root_ = s.root_ ∧
      (PutCommit s new_version version is_root is_orphan).tips_of_trees_ = s.tips_of_trees_ ∧
      (PutCommit s new_version version is_root is_orphan).orphans_ = s.orphans_ := by
  unfold PutCommit
  cases version.parent with
  | none => simp
  | some parent_name =>
    by_cases hflags : (!is_root && !is_orphan) = true
    · simp [hflags]
    · simp [hflags]

/-- A call of `Put` that returns leaves every member but `versions_` as it was. -/
theorem Put_returned_frame (s : StructuredDataVersions) (old_version new_version : VersionName)
    (after : StructuredDataVersions) (h : Put s old_version new_version = .returned after) :
    after.max_versions_ = s.max_versions_ ∧ after.max_branches_ = s.max_branches_ ∧
      after.root_ = s.root_ ∧ after.tips_of_trees_ = s.tips_of_trees_ ∧
      after.orphans_ = s.orphans_ := by
  unfold Put at h
  split at h
  · cases h
  · cases h
  · cases h; simp
  · simp only at h
    split at h
    · cases h
    · split at h
      · cases h; simp
      · split at h
        · cases h
        · cases h
        · cases h
          exact PutCommit_frame s new_version _ _ _

/-- In every reachable object the root, the tips of trees and the orphans are those of the
constructor: `Put` assigns none of the three members. -/
theorem Reachable_members (s : StructuredDataVersions) (h : Reachable s) :
    s.root_ = (VersionName.default_ctor, none) ∧ s.tips_of_trees_ = [] ∧ s.orphans_ = [] ∧
      1 ≤ s.max_versions_ ∧ 1 ≤ s.max_branches_ := by
  induction h with
  | constructed max_versions max_branches s hc =>
    unfold StructuredDataVersions.ctor at hc
    split at hc
    · cases hc
    · cases hc
      simp only [true_and]
      omega
  | put_returned s old_version new_version after _ hp ih =>
    obtain ⟨h1, h2, h3, h4, h5⟩ := Put_returned_frame s old_version new_version after hp
    rw [h1, h2, h3, h4, h5]
    exact ih
  | put_threw s old_version new_version e after _ hp ih =>
    rw [Put_threw_after s old_version new_version e after hp]
    exact ih

/-- The source's `operator==` decides equality of version names. -/
theorem VersionName.eq_iff (lhs rhs : VersionName) :
    VersionName.eq lhs rhs = true ↔ lhs = rhs := by
  cases lhs
  cases rhs
  simp [VersionName.eq]

/-- A call of `ApplySerialised` that throws leaves the object as it was. -/
theorem ApplySerialised_threw_after (ParseFromString : String → Bool)
    (s : StructuredDataVersions) (serialised_data_versions : String) (e : CommonErrors)
    (after : StructuredDataVersions)
    (h : ApplySerialised ParseFromString s serialised_data_versions = .threw e after) :
    after = s := by
  unfold ApplySerialised at h
  split at h
  · cases h
  · cases h; rfl
  · cases h

/-- The object `forest_0a_1b` is what `Put(VersionName(), 0-a)` followed by `Put(0-a, 1-b)`
leaves of a freshly constructed object with limits (10,10); in particular it is reachable. -/
theorem forest_0a_1b_reachable :
    (∃ s0 s1, StructuredDataVersions.ctor 10 10 = .returned s0 ∧
      Put s0 VersionName.default_ctor name_0_a = .returned s1 ∧
      Put s1 name_0_a name_1_b = .returned forest_0a_1b) ∧ Reachable forest_0a_1b :=
  ⟨⟨_, _, rfl, rfl, rfl⟩,
    Reachable.put_returned _ name_0_a name_1_b _
      (Reachable.put_returned _ VersionName.default_ctor name_0_a _
        (Reachable.constructed 10 10 _ rfl) rfl) rfl⟩

/-! ## The claims -/

/-- C1 (the code breaks it): the number of stored versions stays within `max_versions`.
On limits (1,1), `Put(VersionName(), 0-a)` and then `Put(0-a, 1-b)` both return; the second
one finds the store at its limit, sets the local `erase_existing_root` and inserts without
erasing anything, so two versions are stored under a limit of one and the condition asserted
by `AtVersionsLimit` is false. -/
theorem put_exceeds_max_versions :
    ∃ s0 s1 s2, StructuredDataVersions.ctor 1 1 = .returned s0 ∧
      Put s0 VersionName.default_ctor name_0_a = .returned s1 ∧
      Put s1 name_0_a name_1_b = .returned s2 ∧
      AtVersionsLimit s1 = true ∧
      s2.max_versions_ = 1 ∧ s2.versions_.length = 2 ∧ ¬ VersionsLimitAssertion s2 :=
  ⟨_, _, _, rfl, rfl, rfl, by decide⟩

/-- C2: strong exception guarantee.  Whenever a call of `Put`, `DeleteBranchUntilFork` or
`ApplySerialised` fails with an error, the object after the call equals the object before it:
same limits, versions, links, root, tips and orphans.  This holds for every object (reachable
or not), every argument and every parser. -/
theorem mutators_strong_exception_guarantee (ParseFromString : String → Bool)
    (s : StructuredDataVersions) (call : MutatorCall)
    (h : (call.run ParseFromString s).error?.isSome = true) :
    (call.run ParseFromString s).object? = some s := by
  cases call with
  | Put old_version new_version =>
    simp only [MutatorCall.run] at h ⊢
    cases hr : Put s old_version new_version with
    | returned after => rw [hr] at h; simp [Result.error?] at h
    | threw e after =>
      rw [Put_threw_after s old_version new_version e after hr]
      rfl
    | undefined => rw [hr] at h; simp [Result.error?] at h
  | DeleteBranchUntilFork branch_tip => rfl
  | ApplySerialised serialised_data_versions =>
    simp only [MutatorCall.run] at h ⊢
    cases hr : ApplySerialised ParseFromString s serialised_data_versions with
    | returned after => rw [hr] at h; simp [Result.error?] at h
    | threw e after =>
      rw [ApplySerialised_threw_after ParseFromString s serialised_data_versions e after hr]
      rfl
    | undefined => rw [hr] at h; simp [Result.error?] at h

/-- Witness for C2: on the object holding `0-a` and its child `1-b`, `Put(0-x, 1-b)` throws
`invalid_parameter` and the object is as before. -/
theorem mutators_strong_exception_guarantee_witness :
    ((MutatorCall.Put name_0_x name_1_b).run (fun _ => false) forest_0a_1b).error?.isSome = true ∧
      ((MutatorCall.Put name_0_x name_1_b).run (fun _ => false) forest_0a_1b).object? =
        some forest_0a_1b :=
  ⟨by decide, mutators_strong_exception_guarantee (fun _ => false) forest_0a_1b
    (MutatorCall.Put name_0_x name_1_b) (by decide)⟩

/-- C3 (the code breaks it): a repeated `Put` of the same pair succeeds and changes nothing.
On limits (10,10), `Put(VersionName(), 0-a)` returns and stores `0-a` with `parent == end()`;
the same call again finds `0-a` in `NewVersionPreExists` and dereferences that `end()`
iterator.  The same happens for the orphan insert `Put(0-a, 1-b)` repeated on the empty
object.  Only the child insert (parent stored) repeats as the claim says. -/
theorem put_twice_dereferences_end :
    ∃ s0 s1 s2, StructuredDataVersions.ctor 10 10 = .returned s0 ∧
      Put s0 VersionName.default_ctor name_0_a = .returned s1 ∧
      Put s1 VersionName.default_ctor name_0_a = .undefined ∧
      Put s0 name_0_a name_1_b = .returned s2 ∧
      Put s2 name_0_a name_1_b = .undefined ∧
      Put forest_0a_1b name_0_a name_1_b = .returned forest_0a_1b :=
  ⟨_, _, _, rfl, rfl, rfl, rfl, rfl, rfl⟩

/-- The case of a conflicting parent that the code handles: if `new_version` is stored with a
resolved parent link `p` and `old_version` differs from `p`, then
`Put(old_version, new_version)` throws `invalid_parameter` and the object after the call is
the object before it. -/
theorem put_conflicting_parent_rejected (s : StructuredDataVersions)
    (old_version new_version p : VersionName) (existing : Details)
    (hstored : s.versions_.find new_version = some existing)
    (hparent : existing.parent = some p) (hne : old_version ≠ p) :
    Put s old_version new_version = .threw .invalid_parameter s := by
  have hcmp : VersionName.eq p old_version = false := by
    cases hc : VersionName.eq p old_version with
    | false => rfl
    | true => exact absurd ((VersionName.eq_iff p old_version).mp hc).symm hne
  have hpre : NewVersionPreExists s old_version new_version = .threw .invalid_parameter := by
    unfold NewVersionPreExists
    rw [hstored]
    simp only [hparent, hcmp]
    rfl
  unfold Put
  rw [hpre]

/-- An instance of the handled case: `1-b` is stored with parent link `0-a`, and
`Put(0-x, 1-b)` is rejected. -/
theorem put_conflicting_parent_rejected_witness :
    forest_0a_1b.versions_.find name_1_b = some { parent := some name_0_a, children := [] } ∧
      name_0_x ≠ name_0_a ∧
      Put forest_0a_1b name_0_x name_1_b = .threw .invalid_parameter forest_0a_1b :=
  ⟨rfl, by decide, put_conflicting_parent_rejected forest_0a_1b name_0_x name_1_b name_0_a
    { parent := some name_0_a, children := [] } rfl rfl (by decide)⟩

/-- C4 (the code breaks it): a `Put` of an already stored `new_version` under a different
`old_version` throws `invalid_parameter` and changes nothing.  On limits (10,10), after
`Put(0-a, 1-b)` the version `1-b` is stored as waiting for `0-a`, with `parent == end()`;
`Put(0-x, 1-b)` names another parent and dereferences that `end()` iterator in
`NewVersionPreExists`.  The same happens for the root: after `Put(VersionName(), 0-a)`, the
call `Put(1-b, 0-a)` dereferences `end()`.  Only a version stored with a resolved parent link
is rejected as the claim says (`Put(0-x, 1-b)` on the object holding `0-a` and its child
`1-b`). -/
theorem put_conflicting_parent_dereferences_end :
    ∃ s0 s1 s2, StructuredDataVersions.ctor 10 10 = .returned s0 ∧
      Put s0 name_0_a name_1_b = .returned s1 ∧
      s1.versions_.find name_1_b = some { parent := none, children := [] } ∧
      name_0_x ≠ name_0_a ∧
      NewVersionPreExists s1 name_0_x name_1_b = .undefined ∧
      Put s1 name_0_x name_1_b = .undefined ∧
      Put s0 VersionName.default_ctor name_0_a = .returned s2 ∧
      s2.versions_.find name_0_a = some { parent := none, children := [] } ∧
      name_1_b ≠ VersionName.default_ctor ∧
      NewVersionPreExists s2 name_1_b name_0_a = .undefined ∧
      Put s2 name_1_b name_0_a = .undefined ∧
      Put forest_0a_1b name_0_x name_1_b = .threw .invalid_parameter forest_0a_1b :=
  ⟨_, _, _, rfl, rfl, rfl, by decide, rfl, rfl, rfl, rfl, by decide, rfl, rfl, rfl⟩

/-- C5 (the code breaks it): `Get()` returns exactly the stored versions without children.
On limits (10,10), after `Put(VersionName(), 0-a)` the version `0-a` is stored and has no
children, and `Get()` is empty; after `Put(0-a, 1-b)` the childless version is `1-b` and
`Get()` is still empty.  `Put` never writes to `tips_of_trees_`. -/
theorem get_misses_childless_versions :
    ∃ s0 s1 s2, StructuredDataVersions.ctor 10 10 = .returned s0 ∧
      Put s0 VersionName.default_ctor name_0_a = .returned s1 ∧
      Put s1 name_0_a name_1_b = .returned s2 ∧
      childless s1 = [name_0_a] ∧ Get s1 = [] ∧
      childless s2 = [name_1_b] ∧ Get s2 = [] :=
  ⟨_, _, _, rfl, rfl, rfl, rfl, rfl, rfl, rfl⟩

/-- C6 (the code breaks it): at the versions limit the root is evicted to make room.
On limits (2,5), after `Put(VersionName(), 0-a)` and `Put(0-a, 1-b)` the store is at its
limit; `Put(1-b, 2-c)` returns with `0-a` still stored, `2-c` stored, three versions under a
limit of two, and `root_` still the constructor's value. -/
theorem put_at_versions_limit_keeps_root :
    ∃ s0 s1 s2 s3, StructuredDataVersions.ctor 2 5 = .returned s0 ∧
      Put s0 VersionName.default_ctor name_0_a = .returned s1 ∧
      Put s1 name_0_a name_1_b = .returned s2 ∧
      Put s2 name_1_b name_2_c = .returned s3 ∧
      AtVersionsLimit s2 = true ∧
      s3.versions_.find name_0_a = some { parent := none, children := [name_1_b] } ∧
      s3.versions_.find name_2_c = some { parent := some name_1_b, children := [] } ∧
      s3.versions_.length = 3 ∧ s3.max_versions_ = 2 ∧
      s3.root_ = (VersionName.default_ctor, none) :=
  ⟨_, _, _, _, rfl, rfl, rfl, rfl, rfl, rfl, rfl, rfl, rfl, rfl⟩

/-- C7 (refuted as stated): on limits (3,2), after `Put(VersionName(), 0-a)`, `Put(0-a, 1-b)`,
`Put(1-b, 2-c)` it is not the case that `0-a` has been evicted, `1-b` is the root, `Get()` is
`[2-c]` and `GetBranch(2-c)` is `[2-c, 1-b]`: the store held two versions, below the limit of
three, when the third call was made. -/
theorem spec_scenario_eviction_refuted :
    ∃ s0 s1 s2 s3, StructuredDataVersions.ctor 3 2 = .returned s0 ∧
      Put s0 VersionName.default_ctor name_0_a = .returned s1 ∧
      Put s1 name_0_a name_1_b = .returned s2 ∧
      Put s2 name_1_b name_2_c = .returned s3 ∧
      ¬ (s3.versions_.find name_0_a = none ∧ s3.root_.2 = some name_1_b ∧
          Get s3 = [name_2_c] ∧ GetBranch s3 name_2_c = .returned [name_2_c, name_1_b]) :=
  ⟨_, _, _, _, rfl, rfl, rfl, rfl, by decide⟩

/-- C7 (amended): on limits (3,2), the calls `Put(VersionName(), 0-a)`, `Put(0-a, 1-b)`,
`Put(1-b, 2-c)` all return; none of them is made at the versions limit, nothing is evicted,
and afterwards exactly `0-a`, `1-b`, `2-c` are stored, `1-b` with parent `0-a` and `2-c` with
parent `1-b`. -/
theorem spec_scenario_below_versions_limit :
    ∃ s0 s1 s2 s3, StructuredDataVersions.ctor 3 2 = .returned s0 ∧
      Put s0 VersionName.default_ctor name_0_a = .returned s1 ∧
      Put s1 name_0_a name_1_b = .returned s2 ∧
      Put s2 name_1_b name_2_c = .returned s3 ∧
      AtVersionsLimit s0 = false ∧ AtVersionsLimit s1 = false ∧ AtVersionsLimit s2 = false ∧
      s3.versions_.map (fun entry => entry.1) = [name_0_a, name_1_b, name_2_c] ∧
      s3.versions_.find name_0_a = some { parent := none, children := [name_1_b] } ∧
      s3.versions_.find name_1_b = some { parent := some name_0_a, children := [name_2_c] } ∧
      s3.versions_.find name_2_c = some { parent := some name_1_b, children := [] } :=
  ⟨_, _, _, _, rfl, rfl, rfl, rfl, rfl, rfl, rfl, rfl, rfl, rfl, rfl⟩

/-- C8 (the code breaks it): an insert under a missing parent records an orphan entry.
On limits (10,10), `Put(0-a, 1-b)` on the empty object returns and stores `1-b` without a
parent, but the orphan container has no entry keyed by `0-a`: it stays empty. -/
theorem put_orphan_not_recorded :
    ∃ s0 s1, StructuredDataVersions.ctor 10 10 = .returned s0 ∧
      s0.versions_.find name_0_a = none ∧ name_0_a.id.IsInitialised = true ∧
      Put s0 name_0_a name_1_b = .returned s1 ∧
      s1.versions_.find name_1_b = some { parent := none, children := [] } ∧
      s1.orphans_.equal_range name_0_a = [] ∧ s1.orphans_ = [] :=
  ⟨_, _, rfl, rfl, rfl, rfl, rfl, rfl, rfl⟩

/-- C9 (the code breaks it): inserting the missing parent adopts the waiting orphan.
On limits (10,10), after `Put(0-a, 1-b)` and `Put(VersionName(), 0-a)` both versions are
stored, `1-b` still has no parent, `0-a` has no children, `Get()` is empty and
`GetBranch(1-b)` is empty. -/
theorem put_parent_does_not_unorphan :
    ∃ s0 s1 s2, StructuredDataVersions.ctor 10 10 = .returned s0 ∧
      Put s0 name_0_a name_1_b = .returned s1 ∧
      Put s1 VersionName.default_ctor name_0_a = .returned s2 ∧
      s2.versions_.find name_1_b = some { parent := none, children := [] } ∧
      s2.versions_.find name_0_a = some { parent := none, children := [] } ∧
      Get s2 = [] ∧ GetBranch s2 name_1_b = .returned [] :=
  ⟨_, _, _, rfl, rfl, rfl, rfl, rfl, rfl, rfl⟩

/-- C10 (the code breaks it): a second deliberate root is rejected.  On limits (10,10), after
`Put(VersionName(), 0-a)` the call `Put(VersionName(), 0-b)` returns and stores `0-b` as a
second version without a parent; `root_` was never assigned, so the test for an existing
root is false. -/
theorem put_second_root_accepted :
    ∃ s0 s1 s2, StructuredDataVersions.ctor 10 10 = .returned s0 ∧
      Put s0 VersionName.default_ctor name_0_a = .returned s1 ∧
      s1.root_.2 = none ∧
      Put s1 VersionName.default_ctor name_0_b = .returned s2 ∧
      s2.versions_.find name_0_a = some { parent := none, children := [] } ∧
      s2.versions_.find name_0_b = some { parent := none, children := [] } :=
  ⟨_, _, _, rfl, rfl, rfl, rfl, rfl, rfl⟩

/-- The object `forest_fork` is what `Put(VersionName(), 0-a)`, `Put(0-a, 1-b)` and
`Put(0-a, 1-c)` leave of a freshly constructed object with limits (10,10). -/
theorem forest_fork_reachable :
    (∃ s0 s1, StructuredDataVersions.ctor 10 10 = .returned s0 ∧
      Put s0 VersionName.default_ctor name_0_a = .returned s1 ∧
      Put s1 name_0_a name_1_b = .returned forest_0a_1b ∧
      Put forest_0a_1b name_0_a name_1_c = .returned forest_fork) ∧ Reachable forest_fork :=
  ⟨⟨_, _, rfl, rfl, rfl, rfl⟩,
    Reachable.put_returned forest_0a_1b name_0_a name_1_c _ forest_0a_1b_reachable.2 rfl⟩

/-- The object `forest_full_6y` is what `Put(5-x, 6-y)` leaves of a freshly constructed object
with limits (1,5). -/
theorem forest_full_6y_reachable :
    (∃ s0, StructuredDataVersions.ctor 1 5 = .returned s0 ∧
      Put s0 name_5_x name_6_y = .returned forest_full_6y) ∧ Reachable forest_full_6y :=
  ⟨⟨_, rfl, rfl⟩,
    Reachable.put_returned _ name_5_x name_6_y _ (Reachable.constructed 1 5 _ rfl) rfl⟩

/-- C11 (the code breaks it): a `Put` that closes a parent-child cycle is rejected.  On limits
(10,10), after `Put(0-a, 1-b)` (which stores `1-b` waiting for `0-a`), the call
`Put(1-b, 0-a)` returns and stores `0-a` as a child of `1-b`.  No orphan entry was recorded
for `1-b`, and `Put` calls neither `GetUnorphanGroup` nor `CheckVersionNotInBranch`. -/
theorem put_cycle_accepted :
    ∃ s0 s1 s2, StructuredDataVersions.ctor 10 10 = .returned s0 ∧
      Put s0 name_0_a name_1_b = .returned s1 ∧
      Put s1 name_1_b name_0_a = .returned s2 ∧
      s2.versions_.find name_0_a = some { parent := some name_1_b, children := [] } ∧
      s2.versions_.find name_1_b = some { parent := none, children := [name_0_a] } :=
  ⟨_, _, _, rfl, rfl, rfl, rfl, rfl⟩

/-- C12 (the code breaks it): at the branches limit a `Put` that adds a branch throws
`cannot_exceed_limit` when the root has children.  On limits (10,1), after
`Put(VersionName(), 0-a)` and `Put(0-a, 1-b)` there is one childless version under a limit
of one branch and `0-a` has a child; `Put(0-a, 1-c)` returns and stores `1-c`, leaving two
childless versions.  `tips_of_trees_` is empty, so `AtBranchesLimit` is false. -/
theorem put_at_branches_limit_accepted :
    ∃ s0 s1 s2 s3, StructuredDataVersions.ctor 10 1 = .returned s0 ∧
      Put s0 VersionName.default_ctor name_0_a = .returned s1 ∧
      Put s1 name_0_a name_1_b = .returned s2 ∧
      childless s2 = [name_1_b] ∧ s2.max_branches_ = 1 ∧ AtBranchesLimit s2 = false ∧
      s2.versions_.find name_0_a = some { parent := none, children := [name_1_b] } ∧
      Put s2 name_0_a name_1_c = .returned s3 ∧
      s3.versions_.find name_1_c = some { parent := some name_0_a, children := [] } ∧
      childless s3 = [name_1_b, name_1_c] :=
  ⟨_, _, _, _, rfl, rfl, rfl, rfl, rfl, rfl, rfl, rfl, rfl, rfl⟩

/-- C13 (the code breaks it): at the branches limit a leaf root is evicted to admit a new
orphan.  On limits (5,1), after `Put(VersionName(), 0-a)` the call `Put(5-x, 6-y)` returns
with both `0-a` and `6-y` stored and `Get()` empty, where the claim has only `6-y` stored and
`Get() = [6-y]`. -/
theorem put_at_branches_limit_keeps_leaf_root :
    ∃ s0 s1 s2, StructuredDataVersions.ctor 5 1 = .returned s0 ∧
      Put s0 VersionName.default_ctor name_0_a = .returned s1 ∧
      childless s1 = [name_0_a] ∧ s1.max_branches_ = 1 ∧
      Put s1 name_5_x name_6_y = .returned s2 ∧
      s2.versions_.map (fun entry => entry.1) = [name_0_a, name_6_y] ∧
      Get s2 = [] :=
  ⟨_, _, _, rfl, rfl, rfl, rfl, rfl, rfl, rfl⟩

/-- C14: branch-count bound.  In every object reached from a construction by calls of `Put`
that return or throw, the length of `Get()` is at most `max_branches`, and the condition
asserted by `AtBranchesLimit` holds. -/
theorem get_length_le_max_branches (s : StructuredDataVersions) (h : Reachable s) :
    (Get s).length ≤ max_branches s ∧ BranchesLimitAssertion s := by
  obtain ⟨_, htips, _, _, _⟩ := Reachable_members s h
  unfold BranchesLimitAssertion Get max_branches
  rw [htips]
  simp

/-- Witness for C14: the object with the fork `0-a -> 1-b, 1-c` is reachable and satisfies the
bound. -/
theorem get_length_le_max_branches_witness :
    Reachable forest_fork ∧
      (Get forest_fork).length ≤ max_branches forest_fork ∧
      BranchesLimitAssertion forest_fork :=
  have hreach : Reachable forest_fork :=
    Reachable.put_returned forest_0a_1b name_0_a name_1_c forest_fork
      (Reachable.put_returned _ name_0_a name_1_b forest_0a_1b
        (Reachable.put_returned _ VersionName.default_ctor name_0_a _
          (Reachable.constructed 10 10 _ rfl) rfl) rfl) rfl
  ⟨hreach, get_length_le_max_branches forest_fork hreach⟩

/-- C15 (the code breaks it): `GetBranch(tip)` returns the chain of parents, tip first.  On
the reachable object holding `0-a` and its child `1-b`, the chain of parent links from `1-b`
is `[1-b, 0-a]`, and `GetBranch(1-b)` returns the empty vector, as it does for every
argument. -/
theorem get_branch_returns_empty :
    forest_0a_1b.versions_.find name_1_b = some { parent := some name_0_a, children := [] } ∧
      parent_chain forest_0a_1b.versions_ forest_0a_1b.versions_.length name_1_b =
        [name_1_b, name_0_a] ∧
      GetBranch forest_0a_1b name_1_b = .returned [] :=
  ⟨rfl, rfl, rfl⟩

/-- C16 (the code breaks it): `GetBranch` and `DeleteBranchUntilFork` validate their target.
On the freshly constructed object with limits (10,10), where `0-a` is not stored, and on the
object holding `0-a` with its child `1-b`, where `0-a` is stored and not a tip, both
`GetBranch(0-a)` and `DeleteBranchUntilFork(0-a)` return normally; the claim has them throw
`no_such_element` and `invalid_parameter`. -/
theorem branch_tip_not_validated :
    ∃ s0, StructuredDataVersions.ctor 10 10 = .returned s0 ∧
      s0.versions_.find name_0_a = none ∧
      GetBranch s0 name_0_a = .returned [] ∧
      DeleteBranchUntilFork s0 name_0_a = .returned s0 ∧
      forest_0a_1b.versions_.find name_0_a = some { parent := none, children := [name_1_b] } ∧
      GetBranch forest_0a_1b name_0_a = .returned [] ∧
      DeleteBranchUntilFork forest_0a_1b name_0_a = .returned forest_0a_1b :=
  ⟨_, rfl, rfl, rfl, rfl, rfl, rfl, rfl⟩

/-- C17 (the code breaks it): `DeleteBranchUntilFork(tip)` erases the branch up to the fork.
On limits (10,10), after `Put(5-x, 7-y)` and `Put(7-y, 8-z)` the branch of the childless
version `8-z` is `[8-z, 7-y]` with no fork on it; `DeleteBranchUntilFork(8-z)` returns with
both versions still stored and the object as before. -/
theorem delete_branch_erases_nothing :
    ∃ s0 s1 s2, StructuredDataVersions.ctor 10 10 = .returned s0 ∧
      Put s0 name_5_x name_7_y = .returned s1 ∧
      Put s1 name_7_y name_8_z = .returned s2 ∧
      s2.versions_ = [(name_7_y, { parent := none, children := [name_8_z] }),
                      (name_8_z, { parent := some name_7_y, children := [] })] ∧
      parent_chain s2.versions_ s2.versions_.length name_8_z = [name_8_z, name_7_y] ∧
      DeleteBranchUntilFork s2 name_8_z = .returned s2 :=
  ⟨_, _, _, rfl, rfl, rfl, rfl, rfl, rfl⟩

/-- C18: a fork point is never deleted.  For every object and every `branch_tip`,
`DeleteBranchUntilFork(branch_tip)` returns, and every stored version that has two or more
children, or that is not on the chain of parents of `branch_tip`, is still stored afterwards,
with the same parent link and children. -/
theorem delete_branch_keeps_forks (s : StructuredDataVersions) (branch_tip v : VersionName)
    (details : Details) (hstored : s.versions_.find v = some details)
    (hkeep : 2 ≤ details.children.length ∨
      v ∉ parent_chain s.versions_ s.versions_.length branch_tip) :
    ∃ after, DeleteBranchUntilFork s branch_tip = .returned after ∧
      after.versions_.find v = some details := by
  cases hkeep with
  | inl _ => exact ⟨s, rfl, hstored⟩
  | inr _ => exact ⟨s, rfl, hstored⟩

/-- Witness for C18: in the object with the fork `0-a -> 1-b, 1-c`, the fork point `0-a` is
still stored after `DeleteBranchUntilFork(1-b)`. -/
theorem delete_branch_keeps_forks_witness :
    forest_fork.versions_.find name_0_a =
        some { parent := none, children := [name_1_b, name_1_c] } ∧
      ∃ after, DeleteBranchUntilFork forest_fork name_1_b = .returned after ∧
        after.versions_.find name_0_a =
          some { parent := none, children := [name_1_b, name_1_c] } :=
  ⟨rfl, delete_branch_keeps_forks forest_fork name_1_b name_0_a
    { parent := none, children := [name_1_b, name_1_c] } rfl (Or.inl (by decide))⟩

/-- C19: a root insert at the versions limit is a no-op.  If the object holds exactly
`max_versions` versions and has no root (`root_.second == end()`), then
`Put(old_version, new_version)` with `old_version.id` uninitialised and `new_version` not
stored returns and leaves the object as it was. -/
theorem put_root_at_versions_limit_noop (s : StructuredDataVersions)
    (old_version new_version : VersionName)
    (hlimit : s.versions_.length = s.max_versions_) (hnoroot : s.root_.2 = none)
    (hold : old_version.id.IsInitialised = false)
    (hnew : s.versions_.find new_version = none) :
    Put s old_version new_version = .returned s := by
  have hpre : NewVersionPreExists s old_version new_version = .returned false := by
    unfold NewVersionPreExists
    rw [hnew]
  have hat : AtVersionsLimit s = true := by
    unfold AtVersionsLimit
    simp [hlimit]
  unfold Put
  rw [hpre]
  simp [hold, hnoroot, hat]

/-- Witness for C19: on limits (1,5) after `Put(5-x, 6-y)`, the call `Put(VersionName(), 0-a)`
returns and the only stored version is still `6-y`. -/
theorem put_root_at_versions_limit_noop_witness :
    forest_full_6y.versions_.length = forest_full_6y.max_versions_ ∧
      forest_full_6y.root_.2 = none ∧
      VersionName.default_ctor.id.IsInitialised = false ∧
      forest_full_6y.versions_.find name_0_a = none ∧
      Put forest_full_6y VersionName.default_ctor name_0_a = .returned forest_full_6y :=
  ⟨rfl, rfl, rfl, rfl,
    put_root_at_versions_limit_noop forest_full_6y VersionName.default_ctor name_0_a
      rfl rfl rfl rfl⟩

/-- C20: construction validates the limits.  The constructor throws `invalid_parameter`
exactly when `max_versions = 0` or `max_branches = 0`; otherwise it returns an object, and
the object it returns has no versions, no root, no tips, no orphans, `Get() = []`, and
`max_versions()` and `max_branches()` equal to the arguments. -/
theorem ctor_validates_limits (max_versions_in max_branches_in : Nat) :
    (StructuredDataVersions.ctor max_versions_in max_branches_in = .threw .invalid_parameter ↔
        max_versions_in = 0 ∨ max_branches_in = 0) ∧
      ((∃ s, StructuredDataVersions.ctor max_versions_in max_branches_in = .returned s) ↔
        ¬ (max_versions_in = 0 ∨ max_branches_in = 0)) ∧
      ∀ s, StructuredDataVersions.ctor max_versions_in max_branches_in = .returned s →
        s.versions_ = [] ∧ s.root_ = (VersionName.default_ctor, none) ∧
          s.tips_of_trees_ = [] ∧ s.orphans_ = [] ∧ Get s = [] ∧
          max_versions s = max_versions_in ∧ max_branches s = max_branches_in := by
  by_cases h : max_versions_in = 0 ∨ max_branches_in = 0
  · have hlt : max_versions_in < 1 ∨ max_branches_in < 1 := by omega
    have hc : StructuredDataVersions.ctor max_versions_in max_branches_in =
        .threw .invalid_parameter := by
      unfold StructuredDataVersions.ctor
      rw [if_pos hlt]
    rw [hc]
    refine ⟨⟨fun _ => h, fun _ => rfl⟩,
      ⟨fun ⟨s, hs⟩ => ?_, fun hn => absurd h hn⟩, ?_⟩
    · cases hs
    · intro s hs
      cases hs
  · have hlt : ¬ (max_versions_in < 1 ∨ max_branches_in < 1) := by omega
    have hc : StructuredDataVersions.ctor max_versions_in max_branches_in =
        .returned
          { max_versions_ := max_versions_in
            max_branches_ := max_branches_in
            versions_ := []
            root_ := (VersionName.default_ctor, none)
            tips_of_trees_ := []
            orphans_ := [] } := by
      unfold StructuredDataVersions.ctor
      rw [if_neg hlt]
    rw [hc]
    refine ⟨⟨fun hthrew => ?_, fun hzero => absurd hzero h⟩,
      ⟨fun _ => h, fun _ => ⟨_, rfl⟩⟩, ?_⟩
    · cases hthrew
    · intro s hs
      cases hs
      exact ⟨rfl, rfl, rfl, rfl, rfl, rfl, rfl⟩

/-- Witness for C20: limits (3,2) give an empty object with those limits, and limits (0,2)
are rejected. -/
theorem ctor_validates_limits_witness :
    (∃ s, StructuredDataVersions.ctor 3 2 = .returned s ∧ s.versions_ = [] ∧ Get s = [] ∧
        max_versions s = 3 ∧ max_branches s = 2) ∧
      StructuredDataVersions.ctor 0 2 = .threw .invalid_parameter :=
  ⟨⟨_, rfl, ((ctor_validates_limits 3 2).2.2 _ rfl).1,
      ((ctor_validates_limits 3 2).2.2 _ rfl).2.2.2.2.1,
      ((ctor_validates_limits 3 2).2.2 _ rfl).2.2.2.2.2⟩,
    (ctor_validates_limits 0 2).1.mpr (Or.inl rfl)⟩

/-! ## Claims on `clear`, serialisation and the comparison operators -/

/-- C21: `clear()` resets the content and keeps the limits.  After `clear()` no version is
stored, `root_` is `(VersionName(), end())`, `Get()` is empty, there are no orphans, and
`max_versions()` and `max_branches()` are as before; when both limits are at least 1 the
object equals the one the constructor returns for these limits. -/
theorem clear_resets_content (s : StructuredDataVersions) :
    (clear s).versions_ = [] ∧ (clear s).root_ = (VersionName.default_ctor, none) ∧
      Get (clear s) = [] ∧ (clear s).orphans_ = [] ∧
      max_versions (clear s) = max_versions s ∧ max_branches (clear s) = max_branches s ∧
      (1 ≤ max_versions s ∧ 1 ≤ max_branches s →
        StructuredDataVersions.ctor (max_versions s) (max_branches s) = .returned (clear s)) := by
  refine ⟨rfl, rfl, rfl, rfl, rfl, rfl, ?_⟩
  intro hlimits
  have hlt : ¬ (max_versions s < 1 ∨ max_branches s < 1) := by omega
  unfold StructuredDataVersions.ctor
  rw [if_neg hlt]
  rfl

/-- Witness for C21: clearing the object with the fork `0-a -> 1-b, 1-c` gives the freshly
constructed object with limits (10,10). -/
theorem clear_resets_content_witness :
    (1 ≤ max_versions forest_fork ∧ 1 ≤ max_branches forest_fork) ∧
      (clear forest_fork).versions_ = [] ∧
      StructuredDataVersions.ctor 10 10 = .returned (clear forest_fork) :=
  ⟨by decide, (clear_resets_content forest_fork).1,
    (clear_resets_content forest_fork).2.2.2.2.2.2 (by decide)⟩

/-- C22 (the code breaks it): `StructuredDataVersions(X.Serialise())` has the limits, tips,
root, versions and parents of `X`.  For the reachable object holding `0-a` and its child
`1-b` under limits (10,10), and whatever the parser, the `NonEmptyString` constructor and the
serialisation of a default-constructed message are, the round trip either does not return
an object or returns the value-initialised one: limits (0,0), no versions and a singular
`root_.second`. -/
theorem serialise_round_trip_loses_forest (ParseFromString : String → Bool)
    (NonEmptyString : String → Outcome String) (default_message : String) :
    max_versions forest_0a_1b = 10 ∧ forest_0a_1b.versions_.length = 2 ∧
      ((SerialiseThenConstruct ParseFromString NonEmptyString default_message
          forest_0a_1b).value? = none ∨
        (SerialiseThenConstruct ParseFromString NonEmptyString default_message
          forest_0a_1b).value? =
          some { max_versions_ := 0
                 max_branches_ := 0
                 versions_ := []
                 root_ := (VersionName.default_ctor, .singular)
                 tips_of_trees_ := []
                 orphans_ := [] }) := by
  refine ⟨rfl, rfl, ?_⟩
  unfold SerialiseThenConstruct Serialise StructuredDataVersions.ctor_serialised
  cases NonEmptyString default_message with
  | returned serialised =>
    cases hparse : ParseFromString serialised with
    | false => left; simp [hparse, Outcome.value?]
    | true => right; simp [hparse, Outcome.value?]
  | threw e => left; rfl
  | undefined => left; rfl

/-- C23 (the code breaks it): `ApplySerialised` overwrites the limits with those of the
serialised object and stores its versions.  For every parser, every object and every
serialised string, the call returns or throws with the object exactly as it was: the local
`new_info` is constructed and dropped. -/
theorem apply_serialised_changes_nothing (ParseFromString : String → Bool)
    (s : StructuredDataVersions) (serialised_data_versions : String) :
    (ApplySerialised ParseFromString s serialised_data_versions).object? = some s ∧
      ((ApplySerialised ParseFromString s serialised_data_versions).object?.map max_versions =
        some (max_versions s)) := by
  unfold ApplySerialised StructuredDataVersions.ctor_serialised
  cases ParseFromString serialised_data_versions <;> simp [Result.object?]

/-- C25: equality of version names is structural.  `a == b` holds exactly when the indices
are equal and the identities are equal, and `a != b` holds exactly when `a == b` does not. -/
theorem version_name_eq_structural (a b : VersionName) :
    (VersionName.eq a b = true ↔ a.index = b.index ∧ a.id = b.id) ∧
      (VersionName.ne a b = true ↔ ¬ VersionName.eq a b = true) := by
  constructor
  · simp [VersionName.eq]
  · simp [VersionName.ne]

/-- C30 (the code breaks it): `NewVersionPreExists` reads the parent name only through a
resolved parent link.  On limits (10,10), after `Put(VersionName(), 0-a)` the version `0-a`
is stored with `parent == end()`; in `Put(0-x, 0-a)` the call of `NewVersionPreExists` finds
`0-a` and dereferences that `end()` iterator. -/
theorem new_version_pre_exists_dereferences_end :
    ∃ s0 s1, StructuredDataVersions.ctor 10 10 = .returned s0 ∧
      Put s0 VersionName.default_ctor name_0_a = .returned s1 ∧
      s1.versions_.find name_0_a = some { parent := none, children := [] } ∧
      NewVersionPreExists s1 name_0_x name_0_a = .undefined ∧
      Put s1 name_0_x name_0_a = .undefined :=
  ⟨_, _, rfl, rfl, rfl, rfl, rfl⟩

/-! ## The order on version names -/

/-- The order on identities is irreflexive. -/
theorem identity_lt_irrefl (a : Identity) : Identity.lt a a = false := by
  cases a <;> simp [Identity.lt]

/-- The order on identities is transitive. -/
theorem identity_lt_trans (a b c : Identity) (hab : Identity.lt a b = true)
    (hbc : Identity.lt b c = true) : Identity.lt a c = true := by
  cases a <;> cases b <;> cases c <;> simp [Identity.lt] at hab hbc ⊢
  omega

/-- Two identities neither of which is below the other are equal. -/
theorem identity_eq_of_not_lt (a b : Identity) (hab : Identity.lt a b = false)
    (hba : Identity.lt b a = false) : a = b := by
  cases a <;> cases b <;> simp [Identity.lt] at hab hba ⊢
  omega

/-- Unfolding of the source's `operator<` on version names. -/
theorem VersionName.lt_iff (a b : VersionName) :
    VersionName.lt a b = true ↔
      a.index < b.index ∨ (a.index = b.index ∧ Identity.lt a.id b.id = true) := by
  unfold VersionName.lt
  by_cases h1 : a.index < b.index
  · simp [h1]
  · by_cases h2 : b.index < a.index
    · simp [h1, h2]
      omega
    · have heq : a.index = b.index := by omega
      simp [heq]

/-- The order on version names is irreflexive. -/
theorem VersionName.lt_irrefl (a : VersionName) : VersionName.lt a a = false := by
  cases h : VersionName.lt a a with
  | false => rfl
  | true =>
    rcases (VersionName.lt_iff a a).mp h with h1 | ⟨_, h2⟩
    · omega
    · rw [identity_lt_irrefl] at h2
      cases h2

/-- The order on version names is transitive. -/
theorem VersionName.lt_trans (a b c : VersionName) (hab : VersionName.lt a b = true)
    (hbc : VersionName.lt b c = true) : VersionName.lt a c = true := by
  rw [VersionName.lt_iff] at hab hbc ⊢
  rcases hab with h1 | ⟨h1, h2⟩ <;> rcases hbc with h3 | ⟨h3, h4⟩
  · left; omega
  · left; omega
  · left; omega
  · right
    exact ⟨h1.trans h3, identity_lt_trans _ _ _ h2 h4⟩

/-- Two version names neither of which is below the other are equal. -/
theorem VersionName.eq_of_not_lt (a b : VersionName) (hab : VersionName.lt a b = false)
    (hba : VersionName.lt b a = false) : a = b := by
  have hab1 : ¬ (a.index < b.index ∨ (a.index = b.index ∧ Identity.lt a.id b.id = true)) := by
    rw [← VersionName.lt_iff, hab]
    simp
  have hba1 : ¬ (b.index < a.index ∨ (b.index = a.index ∧ Identity.lt b.id a.id = true)) := by
    rw [← VersionName.lt_iff, hba]
    simp
  have hindex : a.index = b.index := by omega
  have h1 : Identity.lt a.id b.id = false := by
    cases h : Identity.lt a.id b.id with
    | false => rfl
    | true => exact absurd (Or.inr ⟨hindex, h⟩) hab1
  have h2 : Identity.lt b.id a.id = false := by
    cases h : Identity.lt b.id a.id with
    | false => rfl
    | true => exact absurd (Or.inr ⟨hindex.symm, h⟩) hba1
  have hid : a.id = b.id := identity_eq_of_not_lt _ _ h1 h2
  cases a
  cases b
  simp only [VersionName.mk.injEq]
  exact ⟨hindex, hid⟩

/-- C24: the order on version names is the lexicographic strict total order.  `a < b` holds
exactly when `a.index < b.index`, or the indices are equal and `a.id < b.id`; `<` is
irreflexive and transitive, and exactly one of `a < b`, `a == b`, `b < a` holds. -/
theorem version_name_lt_strict_total_order (a b c : VersionName) :
    (VersionName.lt a b = true ↔
        a.index < b.index ∨ (a.index = b.index ∧ Identity.lt a.id b.id = true)) ∧
      VersionName.lt a a = false ∧
      (VersionName.lt a b = true → VersionName.lt b c = true → VersionName.lt a c = true) ∧
      ((VersionName.lt a b = true ∧ VersionName.eq a b = false ∧ VersionName.lt b a = false) ∨
        (VersionName.lt a b = false ∧ VersionName.eq a b = true ∧
          VersionName.lt b a = false) ∨
        (VersionName.lt a b = false ∧ VersionName.eq a b = false ∧
          VersionName.lt b a = true)) := by
  refine ⟨VersionName.lt_iff a b, VersionName.lt_irrefl a, VersionName.lt_trans a b c, ?_⟩
  have heq_false : ∀ x y : VersionName, x ≠ y → VersionName.eq x y = false := by
    intro x y hne
    cases h : VersionName.eq x y with
    | false => rfl
    | true => exact absurd ((VersionName.eq_iff x y).mp h) hne
  cases hab : VersionName.lt a b with
  | true =>
    left
    have hne : a ≠ b := by
      intro heq
      rw [heq, VersionName.lt_irrefl] at hab
      cases hab
    have hba : VersionName.lt b a = false := by
      cases h : VersionName.lt b a with
      | false => rfl
      | true =>
        have haa := VersionName.lt_trans a b a hab h
        rw [VersionName.lt_irrefl] at haa
        cases haa
    exact ⟨rfl, heq_false a b hne, hba⟩
  | false =>
    right
    cases hba : VersionName.lt b a with
    | true =>
      right
      have hne : a ≠ b := by
        intro heq
        rw [heq, VersionName.lt_irrefl] at hba
        cases hba
      exact ⟨rfl, heq_false a b hne, rfl⟩
    | false =>
      left
      exact ⟨rfl, (VersionName.eq_iff a b).mpr (VersionName.eq_of_not_lt a b hab hba), rfl⟩

/-- Witness for C24: `0-a < 1-b < 2-c` gives `0-a < 2-c`. -/
theorem version_name_lt_strict_total_order_witness :
    VersionName.lt name_0_a name_1_b = true ∧ VersionName.lt name_1_b name_2_c = true ∧
      VersionName.lt name_0_a name_2_c = true :=
  ⟨by decide, by decide,
    (version_name_lt_strict_total_order name_0_a name_1_b name_2_c).2.2.1
      (by decide) (by decide)⟩

/-! ## Lemmas on the versions container -/

/-- Looking up a freshly inserted key finds the inserted details. -/
theorem Versions.find_insert_self (m : Versions) (k : VersionName) (d : Details)
    (h : Versions.find m k = none) : Versions.find (Versions.insert m k d) k = some d := by
  induction m with
  | nil => simp [Versions.insert, Versions.find]
  | cons entry rest ih =>
    obtain ⟨k1, d1⟩ := entry
    have hk : k1 ≠ k := by
      intro heq
      simp [Versions.find, heq] at h
    have hrest : Versions.find rest k = none := by
      simpa [Versions.find, hk] using h
    unfold Versions.insert
    by_cases h1 : VersionName.lt k k1 = true
    · simp [h1, Versions.find]
    · by_cases h2 : VersionName.lt k1 k = true
      · simp [h1, h2, Versions.find, hk, ih hrest]
      · exfalso
        apply hk
        exact (VersionName.eq_of_not_lt k k1 (by simpa using h1) (by simpa using h2)).symm

/-- Inserting a key does not change what is found under another key. -/
theorem Versions.find_insert_other (m : Versions) (k : VersionName) (d : Details)
    (k2 : VersionName) (hne : k2 ≠ k) :
    Versions.find (Versions.insert m k d) k2 = Versions.find m k2 := by
  induction m with
  | nil => simp [Versions.insert, Versions.find, Ne.symm hne]
  | cons entry rest ih =>
    obtain ⟨k1, d1⟩ := entry
    unfold Versions.insert
    by_cases h1 : VersionName.lt k k1 = true
    · simp [h1, Versions.find, Ne.symm hne]
    · by_cases h2 : VersionName.lt k1 k = true
      · by_cases hk : k1 = k2
        · subst hk
          simp [h1, h2, Versions.find]
        · simp [h1, h2, Versions.find, hk, ih]
      · simp [h1, h2]

/-- Inserting a key that is not stored makes the container one entry longer. -/
theorem Versions.length_insert (m : Versions) (k : VersionName) (d : Details)
    (h : Versions.find m k = none) : (Versions.insert m k d).length = m.length + 1 := by
  induction m with
  | nil => simp [Versions.insert]
  | cons entry rest ih =>
    obtain ⟨k1, d1⟩ := entry
    have hk : k1 ≠ k := by
      intro heq
      simp [Versions.find, heq] at h
    have hrest : Versions.find rest k = none := by
      simpa [Versions.find, hk] using h
    unfold Versions.insert
    by_cases h1 : VersionName.lt k k1 = true
    · simp [h1]
    · by_cases h2 : VersionName.lt k1 k = true
      · simp [h1, h2, ih hrest]
      · exfalso
        apply hk
        exact (VersionName.eq_of_not_lt k k1 (by simpa using h1) (by simpa using h2)).symm

/-- After a `push_back` onto the children of `parent`, the entry of `parent` has the child
appended and every other entry is as before. -/
theorem Versions.find_push_back_child (m : Versions) (parent child k : VersionName) :
    Versions.find (Versions.push_back_child m parent child) k =
      if k = parent then
        (Versions.find m parent).map
          (fun d => { d with children := d.children ++ [child] })
      else Versions.find m k := by
  induction m with
  | nil => simp [Versions.push_back_child, Versions.find]
  | cons entry rest ih =>
    obtain ⟨k1, d1⟩ := entry
    unfold Versions.push_back_child
    by_cases hp : k1 = parent
    · by_cases hk : k = parent
      · simp [hp, hk, Versions.find]
      · have hk1 : ¬ parent = k := fun h => hk h.symm
        simp [hp, hk, hk1, Versions.find]
    · by_cases hk : k = parent
      · have hk1 : ¬ k1 = k := fun h => hp (h.trans hk)
        simp only [hp, hk, if_false, if_true, Versions.find] at ih ⊢
        exact ih
      · by_cases hkk : k1 = k
        · simp [hp, hk, hkk, Versions.find]
        · simp only [hp, hk, hkk, if_false, Versions.find] at ih ⊢
          exact ih

/-- A `push_back` onto a child list does not change the number of entries. -/
theorem Versions.length_push_back_child (m : Versions) (parent child : VersionName) :
    (Versions.push_back_child m parent child).length = m.length := by
  induction m with
  | nil => simp [Versions.push_back_child]
  | cons entry rest ih =>
    obtain ⟨k1, d1⟩ := entry
    unfold Versions.push_back_child
    by_cases hp : k1 = parent
    · simp [hp]
    · simp [hp, ih]

/-! ## What a returning `Put` does to the versions container -/

/-- If `NewVersionPreExists` returns false, the new version is not stored. -/
theorem NewVersionPreExists_false (s : StructuredDataVersions)
    (old_version new_version : VersionName)
    (h : NewVersionPreExists s old_version new_version = .returned false) :
    s.versions_.find new_version = none := by
  unfold NewVersionPreExists at h
  split at h
  · assumption
  · split at h
    · cases h
    · split at h <;> cases h

/-- The commit step for a version with a parent link: insert, then `push_back` onto the
parent's children. -/
theorem PutCommit_versions_some (s : StructuredDataVersions) (new_version p : VersionName)
    (children : List VersionName) :
    (PutCommit s new_version { parent := some p, children := children } false false).versions_ =
      Versions.push_back_child
        (Versions.insert s.versions_ new_version { parent := some p, children := children })
        p new_version := by
  simp [PutCommit]

/-- The commit step for a version without a parent link: insert only. -/
theorem PutCommit_versions_none (s : StructuredDataVersions) (new_version : VersionName)
    (children : List VersionName) (is_root is_orphan : Bool) :
    (PutCommit s new_version { parent := none, children := children } is_root
        is_orphan).versions_ =
      Versions.insert s.versions_ new_version { parent := none, children := children } := by
  simp [PutCommit]

/-- A call of `Put` that returns either leaves the object as it was, or finds `new_version`
not stored and inserts it: with parent link `old_version` and a `push_back` onto the children
of `old_version` when `old_version.id` is initialised and `old_version` is stored, and without
a parent link otherwise. -/
theorem Put_returned_versions (s : StructuredDataVersions)
    (old_version new_version : VersionName) (after : StructuredDataVersions)
    (h : Put s old_version new_version = .returned after) :
    after = s ∨
      (s.versions_.find new_version = none ∧
        ((old_version.id.IsInitialised = true ∧
            (∃ dp, s.versions_.find old_version = some dp) ∧
            after.versions_ =
              Versions.push_back_child
                (Versions.insert s.versions_ new_version
                  { parent := some old_version
                    children := (s.orphans_.equal_range new_version).map (fun entry => entry.2) })
                old_version new_version) ∨
          after.versions_ =
            Versions.insert s.versions_ new_version
              { parent := none
                children :=
                  (s.orphans_.equal_range new_version).map (fun entry => entry.2) })) := by
  unfold Put at h
  split at h
  · cases h
  · cases h
  · cases h
    exact Or.inl rfl
  · rename_i hpre
    have hnew := NewVersionPreExists_false s old_version new_version hpre
    simp only at h
    split at h
    · cases h
    · split at h
      · cases h
        exact Or.inl rfl
      · split at h
        · cases h
        · cases h
        · cases h
          refine Or.inr ⟨hnew, ?_⟩
          cases hinit : old_version.id.IsInitialised with
          | false =>
            right
            simp only [hinit, Bool.not_false, if_true]
            exact PutCommit_versions_none s new_version _ _ _
          | true =>
            cases hfind : s.versions_.find old_version with
            | none =>
              right
              simp only [hinit, hfind, Bool.not_true, Option.map_none', Bool.false_eq_true,
                if_false]
              exact PutCommit_versions_none s new_version _ _ _
            | some dp =>
              left
              refine ⟨rfl, ⟨dp, rfl⟩, ?_⟩
              simp only [hinit, hfind, Bool.not_true, Option.map_some', Bool.false_eq_true,
                if_false, Option.isNone_some, Bool.and_false]
              exact PutCommit_versions_some s new_version old_version _

/-! ## The commit of a child insert -/

/-- Below both limits and with nothing to un-orphan, `Put(p, c)` for a stored `p` with an
initialised identity and a `c` that is not stored returns the committed object. -/
theorem Put_child_returns (s : StructuredDataVersions) (p c : VersionName) (dp : Details)
    (hp : s.versions_.find p = some dp) (hinit : p.id.IsInitialised = true)
    (hc : s.versions_.find c = none) (horphans : s.orphans_.equal_range c = [])
    (hversions : s.versions_.length < s.max_versions_)
    (hbranches : s.tips_of_trees_.length < s.max_branches_) :
    Put s p c = .returned (PutCommit s c { parent := some p, children := [] } false false) := by
  have hpre : NewVersionPreExists s p c = .returned false := by
    unfold NewVersionPreExists
    rw [hc]
  have hatv : AtVersionsLimit s = false := by
    unfold AtVersionsLimit
    simp
    omega
  have hatb : AtBranchesLimit s = false := by
    unfold AtBranchesLimit
    simp
    omega
  unfold Put
  rw [hpre]
  simp [hinit, hp, horphans, hatv, hatb, PutBranchesLimit]

/-- C28 (refuted as stated): `Put(p, c)` for a stored `p` makes `c` a child of `p`.  On limits
(10,10), `Put(VersionName(), p)` with `p` of index 0 and uninitialised identity stores `p`;
then `Put(p, 1-b)` is below both limits, `1-b` is not stored and nothing waits for it, and the
call returns with `1-b` stored without a parent link and the child list of `p` still empty:
an `old_version` with uninitialised identity marks a root insert. -/
theorem put_child_under_uninitialised_parent_refuted :
    ∃ s0 s1 s2, StructuredDataVersions.ctor 10 10 = .returned s0 ∧
      Put s0 VersionName.default_ctor name_0_uninitialised = .returned s1 ∧
      s1.versions_.find name_0_uninitialised = some { parent := none, children := [] } ∧
      s1.versions_.find name_1_b = none ∧ s1.orphans_.equal_range name_1_b = [] ∧
      s1.versions_.length < s1.max_versions_ ∧ s1.tips_of_trees_.length < s1.max_branches_ ∧
      Put s1 name_0_uninitialised name_1_b = .returned s2 ∧
      s2.versions_.find name_1_b = some { parent := none, children := [] } ∧
      s2.versions_.find name_0_uninitialised = some { parent := none, children := [] } ∧
      ¬ (s2.versions_.find name_1_b =
            some { parent := some name_0_uninitialised, children := [] } ∧
          s2.versions_.find name_0_uninitialised =
            some { parent := none, children := [name_1_b] }) :=
  ⟨_, _, _, rfl, rfl, rfl, rfl, rfl, by decide, by decide, rfl, rfl, rfl, by decide⟩

/-- C28 (amended): commit of a plain child insert and its frame.  For every object below both
limits, every stored `p` whose identity is initialised and every `c` that is not stored and
has no orphans waiting for it, `Put(p, c)` returns; afterwards `c` is stored with parent `p`
and no children, the child list of `p` is the previous one with `c` appended, every other
stored version has the parent link and child list it had, no version has been removed, and
the limits are unchanged. -/
theorem put_child_commit_and_frame (s : StructuredDataVersions) (p c : VersionName)
    (dp : Details) (hp : s.versions_.find p = some dp) (hinit : p.id.IsInitialised = true)
    (hc : s.versions_.find c = none) (horphans : s.orphans_.equal_range c = [])
    (hversions : s.versions_.length < s.max_versions_)
    (hbranches : s.tips_of_trees_.length < s.max_branches_) :
    ∃ after, Put s p c = .returned after ∧
      after.versions_.find c = some { parent := some p, children := [] } ∧
      after.versions_.find p = some { dp with children := dp.children ++ [c] } ∧
      (∀ v, v ≠ p → v ≠ c → after.versions_.find v = s.versions_.find v) ∧
      (∀ v, s.versions_.find v ≠ none → after.versions_.find v ≠ none) ∧
      max_versions after = max_versions s ∧ max_branches after = max_branches s := by
  have hpc : p ≠ c := by
    intro heq
    rw [heq, hc] at hp
    cases hp
  have hfind : ∀ v,
      (PutCommit s c { parent := some p, children := [] } false false).versions_.find v =
        if v = p then some { dp with children := dp.children ++ [c] }
        else if v = c then some { parent := some p, children := [] }
        else s.versions_.find v := by
    intro v
    rw [PutCommit_versions_some, Versions.find_push_back_child]
    by_cases hvp : v = p
    · rw [if_pos hvp, if_pos hvp, Versions.find_insert_other _ _ _ _ hpc, hp]
      rfl
    · rw [if_neg hvp, if_neg hvp]
      by_cases hvc : v = c
      · rw [if_pos hvc, hvc, Versions.find_insert_self _ _ _ hc]
      · rw [if_neg hvc, Versions.find_insert_other _ _ _ _ hvc]
  refine ⟨_, Put_child_returns s p c dp hp hinit hc horphans hversions hbranches, ?_, ?_, ?_, ?_,
    (PutCommit_frame s c _ _ _).1, (PutCommit_frame s c _ _ _).2.1⟩
  · rw [hfind, if_neg (Ne.symm hpc), if_pos rfl]
  · rw [hfind, if_pos rfl]
  · intro v hvp hvc
    rw [hfind, if_neg hvp, if_neg hvc]
  · intro v hv
    rw [hfind]
    by_cases hvp : v = p
    · rw [if_pos hvp]
      simp
    · rw [if_neg hvp]
      by_cases hvc : v = c
      · rw [if_pos hvc]
        simp
      · rw [if_neg hvc]
        exact hv

/-- Witness for C28 (amended): `Put(0-a, 1-c)` on the object holding `0-a` and its child
`1-b` appends `1-c` to the children of `0-a`. -/
theorem put_child_commit_and_frame_witness :
    forest_0a_1b.versions_.find name_0_a = some { parent := none, children := [name_1_b] } ∧
      name_0_a.id.IsInitialised = true ∧ forest_0a_1b.versions_.find name_1_c = none ∧
      forest_0a_1b.orphans_.equal_range name_1_c = [] ∧
      forest_0a_1b.versions_.length < forest_0a_1b.max_versions_ ∧
      forest_0a_1b.tips_of_trees_.length < forest_0a_1b.max_branches_ ∧
      ∃ after, Put forest_0a_1b name_0_a name_1_c = .returned after ∧
        after.versions_.find name_1_c = some { parent := some name_0_a, children := [] } ∧
        after.versions_.find name_0_a =
          some { parent := none, children := [name_1_b] ++ [name_1_c] } ∧
        (∀ v, v ≠ name_0_a → v ≠ name_1_c →
          after.versions_.find v = forest_0a_1b.versions_.find v) ∧
        (∀ v, forest_0a_1b.versions_.find v ≠ none → after.versions_.find v ≠ none) ∧
        max_versions after = max_versions forest_0a_1b ∧
        max_branches after = max_branches forest_0a_1b :=
  ⟨rfl, rfl, rfl, rfl, by decide, by decide,
    put_child_commit_and_frame forest_0a_1b name_0_a name_1_c
      { parent := none, children := [name_1_b] } rfl rfl rfl rfl (by decide) (by decide)⟩

/-! ## Invariants of the versions container -/

/-- Lookup after the insert of a key that was not stored. -/
theorem Versions.find_insert (m : Versions) (k : VersionName) (d : Details)
    (h : Versions.find m k = none) (v : VersionName) :
    Versions.find (Versions.insert m k d) v = if v = k then some d else Versions.find m v := by
  by_cases hv : v = k
  · rw [if_pos hv, hv, Versions.find_insert_self m k d h]
  · rw [if_neg hv, Versions.find_insert_other m k d v hv]

/-- Lookup after the insert of a key that was not stored followed by the `push_back` onto the
children of a stored parent. -/
theorem Versions.find_insert_push_back (m : Versions) (parent k : VersionName)
    (dp d : Details) (h : Versions.find m k = none) (hp : Versions.find m parent = some dp)
    (v : VersionName) :
    Versions.find (Versions.push_back_child (Versions.insert m k d) parent k) v =
      if v = parent then some { dp with children := dp.children ++ [k] }
      else if v = k then some d else Versions.find m v := by
  have hne : parent ≠ k := by
    intro heq
    rw [heq, h] at hp
    cases hp
  rw [Versions.find_push_back_child]
  by_cases hvp : v = parent
  · rw [if_pos hvp, if_pos hvp, Versions.find_insert_other _ _ _ _ hne, hp]
    rfl
  · rw [if_neg hvp, if_neg hvp, Versions.find_insert m k d h]

/-- The empty container has consistent links. -/
theorem LinksConsistent_nil : LinksConsistent [] := by
  constructor
  · intro c d p hc
    simp [Versions.find] at hc
  · intro p dp c hp
    simp [Versions.find] at hp

/-- Inserting a version without parent link and without children keeps the links
consistent. -/
theorem LinksConsistent_insert (m : Versions) (k : VersionName) (hinv : LinksConsistent m)
    (h : Versions.find m k = none) :
    LinksConsistent (Versions.insert m k { parent := none, children := [] }) := by
  have F := Versions.find_insert m k { parent := none, children := [] } h
  constructor
  · intro c d p hc hpar
    rw [F] at hc
    by_cases hck : c = k
    · rw [if_pos hck] at hc
      cases hc
      cases hpar
    · rw [if_neg hck] at hc
      obtain ⟨dp, hdp, hcount⟩ := hinv.1 c d p hc hpar
      have hpk : p ≠ k := by
        intro heq
        rw [heq, h] at hdp
        cases hdp
      exact ⟨dp, by rw [F, if_neg hpk]; exact hdp, hcount⟩
  · intro p dp c hp hmem
    rw [F] at hp
    by_cases hpk : p = k
    · rw [if_pos hpk] at hp
      cases hp
      cases hmem
    · rw [if_neg hpk] at hp
      obtain ⟨dc, hdc, hpar⟩ := hinv.2 p dp c hp hmem
      have hck : c ≠ k := by
        intro heq
        rw [heq, h] at hdc
        cases hdc
      exact ⟨dc, by rw [F, if_neg hck]; exact hdc, hpar⟩

/-- Inserting a version as a child of a stored parent, with the `push_back` onto the parent's
children, keeps the links consistent. -/
theorem LinksConsistent_insert_child (m : Versions) (parent k : VersionName) (dp : Details)
    (hinv : LinksConsistent m) (h : Versions.find m k = none)
    (hp : Versions.find m parent = some dp) :
    LinksConsistent
      (Versions.push_back_child
        (Versions.insert m k { parent := some parent, children := [] }) parent k) := by
  have hne : parent ≠ k := by
    intro heq
    rw [heq, h] at hp
    cases hp
  have hnotin : k ∉ dp.children := by
    intro hin
    obtain ⟨dc, hdc, _⟩ := hinv.2 parent dp k hp hin
    rw [h] at hdc
    cases hdc
  have F := Versions.find_insert_push_back m parent k dp
    { parent := some parent, children := [] } h hp
  have hstored : ∀ v d, Versions.find m v = some d →
      ∃ d2, Versions.find (Versions.push_back_child
          (Versions.insert m k { parent := some parent, children := [] }) parent k) v = some d2 ∧
        d2.parent = d.parent ∧
        (∀ x, x ≠ k → d2.children.count x = d.children.count x) := by
    intro v d hv
    by_cases hvp : v = parent
    · rw [hvp, hp] at hv
      cases hv
      refine ⟨{ dp with children := dp.children ++ [k] }, by rw [F, if_pos hvp], rfl, ?_⟩
      intro x hx
      have hxk : ¬ k = x := fun heq => hx heq.symm
      simp [List.count_append, List.count_cons, hxk]
    · have hvk : v ≠ k := by
        intro heq
        rw [heq, h] at hv
        cases hv
      exact ⟨d, by rw [F, if_neg hvp, if_neg hvk]; exact hv, rfl, fun _ _ => rfl⟩
  constructor
  · intro c d p hc hpar
    rw [F] at hc
    by_cases hcp : c = parent
    · rw [if_pos hcp] at hc
      cases hc
      obtain ⟨dpp, hdpp, hcount⟩ := hinv.1 parent dp p hp hpar
      obtain ⟨d2, hd2, _, hcnt⟩ := hstored p dpp hdpp
      exact ⟨d2, hd2, by rw [hcp, hcnt parent hne]; exact hcount⟩
    · rw [if_neg hcp] at hc
      by_cases hck : c = k
      · rw [if_pos hck] at hc
        cases hc
        cases hpar
        refine ⟨_, by rw [F, if_pos rfl], ?_⟩
        rw [hck]
        simp [List.count_append, List.count_eq_zero_of_not_mem hnotin]
      · rw [if_neg hck] at hc
        obtain ⟨dpp, hdpp, hcount⟩ := hinv.1 c d p hc hpar
        obtain ⟨d2, hd2, _, hcnt⟩ := hstored p dpp hdpp
        exact ⟨d2, hd2, by rw [hcnt c hck]; exact hcount⟩
  · intro p dp2 c hp2 hmem
    rw [F] at hp2
    by_cases hpp : p = parent
    · rw [if_pos hpp] at hp2
      cases hp2
      rcases List.mem_append.mp hmem with hmem | hmem
      · obtain ⟨dc, hdc, hdcpar⟩ := hinv.2 parent dp c hp hmem
        obtain ⟨d2, hd2, hpar2, _⟩ := hstored c dc hdc
        exact ⟨d2, hd2, by rw [hpar2, hdcpar, hpp]⟩
      · have hck : c = k := by simpa using hmem
        exact ⟨_, by rw [F, hck, if_neg (Ne.symm hne), if_pos rfl], by rw [hpp]⟩
    · rw [if_neg hpp] at hp2
      by_cases hpk : p = k
      · rw [if_pos hpk] at hp2
        cases hp2
        cases hmem
      · rw [if_neg hpk] at hp2
        obtain ⟨dc, hdc, hdcpar⟩ := hinv.2 p dp2 c hp2 hmem
        obtain ⟨d2, hd2, hpar2, _⟩ := hstored c dc hdc
        exact ⟨d2, hd2, by rw [hpar2, hdcpar]⟩

/-- Inserting a version without parent link keeps the parents ranked: the new version gets
the old number of entries as its number. -/
theorem ParentsRanked_insert (m : Versions) (k : VersionName) (children : List VersionName)
    (rank : VersionName → Nat) (hinv : ParentsRanked m rank) (h : Versions.find m k = none) :
    ParentsRanked (Versions.insert m k { parent := none, children := children })
      (fun v => if v = k then m.length else rank v) := by
  have F := Versions.find_insert m k { parent := none, children := children } h
  intro v d hv
  rw [Versions.length_insert m k _ h]
  rw [F] at hv
  by_cases hvk : v = k
  · rw [if_pos hvk] at hv
    cases hv
    refine ⟨by simp [hvk], ?_⟩
    intro p hpar
    cases hpar
  · rw [if_neg hvk] at hv
    obtain ⟨hlt, hparent⟩ := hinv v d hv
    refine ⟨by simp only [if_neg hvk]; omega, ?_⟩
    intro p hpar
    obtain ⟨⟨dp, hdp⟩, hrank⟩ := hparent p hpar
    have hpk : p ≠ k := by
      intro heq
      rw [heq, h] at hdp
      cases hdp
    exact ⟨⟨dp, by rw [F, if_neg hpk]; exact hdp⟩,
      by simp only [if_neg hvk, if_neg hpk]; exact hrank⟩

/-- Inserting a version as a child of a stored parent keeps the parents ranked. -/
theorem ParentsRanked_insert_child (m : Versions) (parent k : VersionName) (dp : Details)
    (children : List VersionName) (rank : VersionName → Nat) (hinv : ParentsRanked m rank)
    (h : Versions.find m k = none) (hp : Versions.find m parent = some dp) :
    ParentsRanked
      (Versions.push_back_child
        (Versions.insert m k { parent := some parent, children := children }) parent k)
      (fun v => if v = k then m.length else rank v) := by
  have hne : parent ≠ k := by
    intro heq
    rw [heq, h] at hp
    cases hp
  have F := Versions.find_insert_push_back m parent k dp
    { parent := some parent, children := children } h hp
  have hstored : ∀ v d, Versions.find m v = some d → v ≠ k ∧
      ∃ d2, Versions.find (Versions.push_back_child
          (Versions.insert m k { parent := some parent, children := children }) parent k) v =
        some d2 := by
    intro v d hv
    have hvk : v ≠ k := by
      intro heq
      rw [heq, h] at hv
      cases hv
    refine ⟨hvk, ?_⟩
    by_cases hvp : v = parent
    · exact ⟨_, by rw [F, if_pos hvp]⟩
    · exact ⟨d, by rw [F, if_neg hvp, if_neg hvk]; exact hv⟩
  have hold : ∀ v d p, Versions.find m v = some d → d.parent = some p →
      (∃ d2, Versions.find (Versions.push_back_child
          (Versions.insert m k { parent := some parent, children := children }) parent k) p =
        some d2) ∧
      (if p = k then m.length else rank p) < rank v := by
    intro v d p hv hpar
    obtain ⟨_, hparent⟩ := hinv v d hv
    obtain ⟨⟨dpp, hdpp⟩, hrank⟩ := hparent p hpar
    obtain ⟨hpk, hfound⟩ := hstored p dpp hdpp
    exact ⟨hfound, by rw [if_neg hpk]; exact hrank⟩
  intro v d hv
  rw [Versions.length_push_back_child, Versions.length_insert m k _ h]
  rw [F] at hv
  by_cases hvp : v = parent
  · rw [if_pos hvp] at hv
    cases hv
    have hvk : v ≠ k := fun heq => hne (hvp.symm.trans heq)
    obtain ⟨hlt, _⟩ := hinv parent dp hp
    refine ⟨by simp only [if_neg hvk]; rw [hvp]; omega, ?_⟩
    intro p hpar
    simp only [if_neg hvk]
    rw [hvp]
    exact hold parent dp p hp hpar
  · rw [if_neg hvp] at hv
    by_cases hvk : v = k
    · rw [if_pos hvk] at hv
      cases hv
      refine ⟨by simp [hvk], ?_⟩
      intro p hpar
      cases hpar
      obtain ⟨hlt, _⟩ := hinv parent dp hp
      exact ⟨(hstored parent dp hp).2, by simp only [if_pos hvk, if_neg hne]; exact hlt⟩
    · rw [if_neg hvk] at hv
      obtain ⟨hlt, _⟩ := hinv v d hv
      refine ⟨by simp only [if_neg hvk]; omega, ?_⟩
      intro p hpar
      simp only [if_neg hvk]
      exact hold v d p hv hpar

/-- With ranked parents, the walk along the parent links from a stored version reaches a
version without parent link within as many lookups as the rank allows; the versions visited
have ranks at most that of the start and are pairwise different. -/
theorem parent_walk_of_ranked (m : Versions) (rank : VersionName → Nat)
    (hinv : ParentsRanked m rank) (fuel : Nat) :
    ∀ v d, Versions.find m v = some d → rank v < fuel →
      ∃ chain, parent_walk m fuel v = some chain ∧ chain.length ≤ rank v + 1 ∧
        (∀ x ∈ chain, rank x ≤ rank v) ∧ chain.Nodup ∧ parent_chain m fuel v = chain := by
  induction fuel with
  | zero =>
    intro v d _ hlt
    omega
  | succ fuel ih =>
    intro v d hv hlt
    cases hpar : d.parent with
    | none =>
      refine ⟨[v], ?_, by simp, ?_, by simp, ?_⟩
      · simp [parent_walk, hv, hpar]
      · intro x hx
        have hxv : x = v := by simpa using hx
        rw [hxv]
      · simp [parent_chain, hv, hpar]
    | some p =>
      obtain ⟨_, hparent⟩ := hinv v d hv
      obtain ⟨⟨dp, hdp⟩, hrank⟩ := hparent p hpar
      obtain ⟨chain, hwalk, hlen, hranks, hnodup, hchain⟩ := ih p dp hdp (by omega)
      refine ⟨v :: chain, ?_, ?_, ?_, ?_, ?_⟩
      · simp [parent_walk, hv, hpar, hwalk]
      · simp only [List.length_cons]
        omega
      · intro x hx
        rcases List.mem_cons.mp hx with hxv | hxc
        · rw [hxv]
        · have := hranks x hxc
          omega
      · refine List.nodup_cons.mpr ⟨?_, hnodup⟩
        intro hmem
        have := hranks v hmem
        omega
      · simp [parent_chain, hv, hpar, hchain]

/-- In every reachable object the links are consistent and the parents are ranked. -/
theorem Reachable_invariants (s : StructuredDataVersions) (h : Reachable s) :
    LinksConsistent s.versions_ ∧ ∃ rank, ParentsRanked s.versions_ rank := by
  induction h with
  | constructed max_versions max_branches s hc =>
    unfold StructuredDataVersions.ctor at hc
    split at hc
    · cases hc
    · cases hc
      refine ⟨LinksConsistent_nil, fun _ => 0, ?_⟩
      intro v d hv
      simp [Versions.find] at hv
  | put_returned s old_version new_version after hreach hput ih =>
    obtain ⟨_, _, horphans, _, _⟩ := Reachable_members s hreach
    have hchildren :
        (s.orphans_.equal_range new_version).map (fun entry => entry.2) = [] := by
      rw [horphans]
      rfl
    obtain ⟨hlinks, rank, hranked⟩ := ih
    rcases Put_returned_versions s old_version new_version after hput with
      hsame | ⟨hnew, ⟨_, ⟨dp, hdp⟩, hafter⟩ | hafter⟩
    · rw [hsame]
      exact ⟨hlinks, rank, hranked⟩
    · rw [hafter, hchildren]
      exact ⟨LinksConsistent_insert_child _ _ _ dp hlinks hnew hdp, _,
        ParentsRanked_insert_child _ _ _ dp [] rank hranked hnew hdp⟩
    · rw [hafter, hchildren]
      exact ⟨LinksConsistent_insert _ _ hlinks hnew, _,
        ParentsRanked_insert _ _ [] rank hranked hnew⟩
  | put_threw s old_version new_version e after _ hput ih =>
    rw [Put_threw_after s old_version new_version e after hput]
    exact ih

/-! ## Claims on the invariants of reachable objects -/

/-- C26: acyclicity.  In every object reached from a construction by calls of `Put`, for every
stored version `v` the chain `v, parent(v), parent(parent(v)), ...` reaches a version without
parent link within `|versions|` lookups, and the versions on it are pairwise different and at
most `|versions|` many. -/
theorem reachable_parent_chain_acyclic (s : StructuredDataVersions) (h : Reachable s)
    (v : VersionName) (d : Details) (hv : s.versions_.find v = some d) :
    ∃ chain, parent_walk s.versions_ s.versions_.length v = some chain ∧
      chain.Nodup ∧ chain.length ≤ s.versions_.length ∧
      parent_chain s.versions_ s.versions_.length v = chain := by
  obtain ⟨_, rank, hranked⟩ := Reachable_invariants s h
  obtain ⟨hlt, _⟩ := hranked v d hv
  obtain ⟨chain, hwalk, hlen, _, hnodup, hchain⟩ :=
    parent_walk_of_ranked s.versions_ rank hranked s.versions_.length v d hv hlt
  exact ⟨chain, hwalk, hnodup, by omega, hchain⟩

/-- Witness for C26: in the reachable object with the fork `0-a -> 1-b, 1-c` the chain from
`1-c` is `[1-c, 0-a]`. -/
theorem reachable_parent_chain_acyclic_witness :
    Reachable forest_fork ∧
      forest_fork.versions_.find name_1_c = some { parent := some name_0_a, children := [] } ∧
      parent_walk forest_fork.versions_ forest_fork.versions_.length name_1_c =
        some [name_1_c, name_0_a] ∧
      ∃ chain, parent_walk forest_fork.versions_ forest_fork.versions_.length name_1_c =
          some chain ∧
        chain.Nodup ∧ chain.length ≤ forest_fork.versions_.length ∧
        parent_chain forest_fork.versions_ forest_fork.versions_.length name_1_c = chain :=
  have hreach : Reachable forest_fork :=
    Reachable.put_returned forest_0a_1b name_0_a name_1_c forest_fork
      (Reachable.put_returned _ name_0_a name_1_b forest_0a_1b
        (Reachable.put_returned _ VersionName.default_ctor name_0_a _
          (Reachable.constructed 10 10 _ rfl) rfl) rfl) rfl
  ⟨hreach, rfl, rfl,
    reachable_parent_chain_acyclic forest_fork hreach name_1_c
      { parent := some name_0_a, children := [] } rfl⟩

/-- C27: parent/child link consistency.  In every object reached from a construction by
calls of `Put`, every stored version with a parent link has that parent stored and occurs
exactly once in the parent's child list, and every entry of a stored version's child list is
a stored version whose parent link is that version. -/
theorem reachable_links_consistent (s : StructuredDataVersions) (h : Reachable s) :
    (∀ c d p, s.versions_.find c = some d → d.parent = some p →
      ∃ dp, s.versions_.find p = some dp ∧ dp.children.count c = 1) ∧
    (∀ p dp c, s.versions_.find p = some dp → c ∈ dp.children →
      ∃ dc, s.versions_.find c = some dc ∧ dc.parent = some p) :=
  (Reachable_invariants s h).1

/-- Witness for C27: in the reachable object holding `0-a` and its child `1-b`, the version
`1-b` has its parent `0-a` stored and occurs once among the children of `0-a`. -/
theorem reachable_links_consistent_witness :
    Reachable forest_0a_1b ∧
      forest_0a_1b.versions_.find name_1_b =
        some { parent := some name_0_a, children := [] } ∧
      ∃ dp, forest_0a_1b.versions_.find name_0_a = some dp ∧
        dp.children.count name_1_b = 1 :=
  have hreach : Reachable forest_0a_1b :=
    Reachable.put_returned _ name_0_a name_1_b forest_0a_1b
      (Reachable.put_returned _ VersionName.default_ctor name_0_a _
        (Reachable.constructed 10 10 _ rfl) rfl) rfl
  ⟨hreach, rfl,
    (reachable_links_consistent forest_0a_1b hreach).1 name_1_b
      { parent := some name_0_a, children := [] } name_0_a rfl rfl⟩

/-! ## The cycle check -/

/-- A stored name is among the keys of the container. -/
theorem Versions.mem_keys_of_find (m : Versions) (k : VersionName) (d : Details)
    (h : Versions.find m k = some d) : k ∈ m.map (fun entry => entry.1) := by
  induction m with
  | nil => simp [Versions.find] at h
  | cons entry rest ih =>
    obtain ⟨k1, d1⟩ := entry
    by_cases hk : k1 = k
    · simp [hk]
    · simp only [Versions.find, if_neg hk] at h
      simp [ih h]

/-- Pairwise different stored names are at most as many as the entries of the container. -/
theorem Versions.length_le_of_nodup (m : Versions) (l : List VersionName) (hnodup : l.Nodup)
    (hstored : ∀ x ∈ l, ∃ d, Versions.find m x = some d) : l.length ≤ m.length := by
  have hsub : l ⊆ m.map (fun entry => entry.1) := by
    intro x hx
    obtain ⟨d, hd⟩ := hstored x hx
    exact Versions.mem_keys_of_find m x d hd
  have hle := (List.subperm_of_subset hnodup hsub).length_le
  simpa using hle

/-- A version with a descendant is stored. -/
theorem Descendant.stored {m : Versions} {n v : VersionName} (h : Descendant m n v) :
    ∃ d, Versions.find m n = some d := by
  cases h with
  | child n d c hn _ => exact ⟨d, hn⟩
  | step n d c v hn _ _ => exact ⟨d, hn⟩

/-- A child of a descendant is a descendant. -/
theorem Descendant.snoc {m : Versions} {a n c : VersionName} {d : Details}
    (h : Descendant m a n) (hn : Versions.find m n = some d) (hc : c ∈ d.children) :
    Descendant m a c := by
  induction h with
  | child a da n ha hmem => exact Descendant.step a da n c ha hmem (Descendant.child n d c hn hc)
  | step a da b n ha hmem _ ih => exact Descendant.step a da b c ha hmem (ih hn)

/-- The descendants of a stored version are its children and the descendants of those. -/
theorem Descendant_iff_children (m : Versions) (n v : VersionName) (d : Details)
    (hn : Versions.find m n = some d) :
    Descendant m n v ↔ ∃ c ∈ d.children, c = v ∨ Descendant m c v := by
  constructor
  · intro h
    cases h with
    | child n d2 c hn2 hmem =>
      rw [hn] at hn2
      cases hn2
      exact ⟨v, hmem, Or.inl rfl⟩
    | step n d2 c v hn2 hmem hrest =>
      rw [hn] at hn2
      cases hn2
      exact ⟨c, hmem, Or.inr hrest⟩
  · rintro ⟨c, hmem, hc | hc⟩
    · rw [← hc]
      exact Descendant.child n d c hn hmem
    · exact Descendant.step n d c v hn hmem hc

/-- The loop over the children: when the recursive call on every child returns or throws
`invalid_parameter`, so does the loop, and it throws exactly when a child is the version
looked for or the call on a child throws. -/
theorem CheckChildren_spec (recurse : VersionName → Option (Outcome Unit))
    (version : VersionName) (Q : VersionName → Prop) (children : List VersionName)
    (hrec : ∀ c ∈ children, ∃ r, recurse c = some r ∧
      (r = .threw .invalid_parameter ∨ r = .returned ()) ∧
      (r = .threw .invalid_parameter ↔ Q c)) :
    ∃ r, CheckChildren recurse version children = some r ∧
      (r = .threw .invalid_parameter ∨ r = .returned ()) ∧
      (r = .threw .invalid_parameter ↔ ∃ c ∈ children, c = version ∨ Q c) := by
  induction children with
  | nil =>
    refine ⟨.returned (), rfl, Or.inr rfl, ?_⟩
    simp
  | cons child rest ih =>
    unfold CheckChildren
    by_cases heq : VersionName.eq child version = true
    · rw [if_pos heq]
      refine ⟨_, rfl, Or.inl rfl, ?_⟩
      simp only [true_iff]
      exact ⟨child, List.mem_cons_self _ _, Or.inl ((VersionName.eq_iff _ _).mp heq)⟩
    · rw [if_neg heq]
      have hne : child ≠ version := fun h => heq ((VersionName.eq_iff _ _).mpr h)
      obtain ⟨r, hr, hkind, hiff⟩ := hrec child (List.mem_cons_self _ _)
      rw [hr]
      rcases hkind with hthrew | hret
      · rw [hthrew]
        refine ⟨_, rfl, Or.inl rfl, ?_⟩
        simp only [true_iff]
        exact ⟨child, List.mem_cons_self _ _, Or.inr (hiff.mp hthrew)⟩
      · rw [hret]
        simp only
        obtain ⟨r2, hr2, hkind2, hiff2⟩ :=
          ih (fun c hc => hrec c (List.mem_cons_of_mem _ hc))
        refine ⟨r2, hr2, hkind2, ?_⟩
        rw [hiff2]
        constructor
        · rintro ⟨c, hc, hq⟩
          exact ⟨c, List.mem_cons_of_mem _ hc, hq⟩
        · rintro ⟨c, hc, hq⟩
          rcases List.mem_cons.mp hc with hcc | hcr
          · exfalso
            rw [hcc] at hq
            rcases hq with hq | hq
            · exact hne hq
            · have := hiff.mpr hq
              rw [hret] at this
              cases this
          · exact ⟨c, hcr, hq⟩

/-- The recursion of `CheckVersionNotInBranch`: with acyclic child links that lead to stored
versions, a call on a stored version `n`, reached through pairwise different `ancestors`,
with a depth bound that leaves room for the versions not yet on the path, returns or throws
`invalid_parameter`, and throws exactly when `version` is a proper descendant of `n`. -/
theorem CheckVersionNotInBranch_spec (m : Versions) (version : VersionName)
    (hacyclic : ChildLinksAcyclic m) (hstored : ChildLinksStored m) (fuel : Nat) :
    ∀ (n : VersionName) (dn : Details) (ancestors : List VersionName),
      Versions.find m n = some dn →
      (∀ a ∈ ancestors, Descendant m a n) → ancestors.Nodup →
      m.length ≤ ancestors.length + fuel →
      ∃ r, CheckVersionNotInBranch m fuel n version = some r ∧
        (r = .threw .invalid_parameter ∨ r = .returned ()) ∧
        (r = .threw .invalid_parameter ↔ Descendant m n version) := by
  induction fuel with
  | zero =>
    intro n dn ancestors hn hanc hnodup hlen
    exfalso
    have hnot : n ∉ ancestors := fun hmem => hacyclic n (hanc n hmem)
    have hnd : (n :: ancestors).Nodup := List.nodup_cons.mpr ⟨hnot, hnodup⟩
    have hle := Versions.length_le_of_nodup m (n :: ancestors) hnd (by
      intro x hx
      rcases List.mem_cons.mp hx with hx | hx
      · rw [hx]
        exact ⟨dn, hn⟩
      · exact (hanc x hx).stored)
    simp only [List.length_cons] at hle
    omega
  | succ fuel ih =>
    intro n dn ancestors hn hanc hnodup hlen
    have hnot : n ∉ ancestors := fun hmem => hacyclic n (hanc n hmem)
    have hrec : ∀ c ∈ dn.children, ∃ r, CheckVersionNotInBranch m fuel c version = some r ∧
        (r = .threw .invalid_parameter ∨ r = .returned ()) ∧
        (r = .threw .invalid_parameter ↔ Descendant m c version) := by
      intro c hc
      obtain ⟨dc, hdc⟩ := hstored n dn c hn hc
      apply ih c dc (n :: ancestors) hdc
      · intro a ha
        rcases List.mem_cons.mp ha with ha | ha
        · rw [ha]
          exact Descendant.child n dn c hn hc
        · exact (hanc a ha).snoc hn hc
      · exact List.nodup_cons.mpr ⟨hnot, hnodup⟩
      · simp only [List.length_cons]
        omega
    obtain ⟨r, hr, hkind, hiff⟩ :=
      CheckChildren_spec (fun child => CheckVersionNotInBranch m fuel child version) version
        (fun c => Descendant m c version) dn.children hrec
    refine ⟨r, ?_, hkind, ?_⟩
    · simp only [CheckVersionNotInBranch, hn]
      exact hr
    · rw [hiff, Descendant_iff_children m n version dn hn]

/-- The loop over the orphans: when the check of every orphan returns or throws
`invalid_parameter`, so does the loop, and it throws exactly when the check of an orphan
throws. -/
theorem CheckOrphans_spec (check : VersionName → Option (Outcome Unit))
    (Q : VersionName → Prop) (range : Orphans)
    (hcheck : ∀ entry ∈ range, ∃ r, check entry.2 = some r ∧
      (r = .threw .invalid_parameter ∨ r = .returned ()) ∧
      (r = .threw .invalid_parameter ↔ Q entry.2)) :
    ∃ r, CheckOrphans check range = some r ∧
      (r = .threw .invalid_parameter ∨ r = .returned ()) ∧
      (r = .threw .invalid_parameter ↔ ∃ entry ∈ range, Q entry.2) := by
  induction range with
  | nil =>
    refine ⟨.returned (), rfl, Or.inr rfl, ?_⟩
    simp
  | cons entry rest ih =>
    unfold CheckOrphans
    obtain ⟨r, hr, hkind, hiff⟩ := hcheck entry (List.mem_cons_self _ _)
    rw [hr]
    rcases hkind with hthrew | hret
    · rw [hthrew]
      refine ⟨_, rfl, Or.inl rfl, ?_⟩
      simp only [true_iff]
      exact ⟨entry, List.mem_cons_self _ _, hiff.mp hthrew⟩
    · rw [hret]
      simp only
      obtain ⟨r2, hr2, hkind2, hiff2⟩ :=
        ih (fun e he => hcheck e (List.mem_cons_of_mem _ he))
      refine ⟨r2, hr2, hkind2, ?_⟩
      rw [hiff2]
      constructor
      · rintro ⟨e, he, hq⟩
        exact ⟨e, List.mem_cons_of_mem _ he, hq⟩
      · rintro ⟨e, he, hq⟩
        rcases List.mem_cons.mp he with hee | her
        · exfalso
          rw [hee] at hq
          have := hiff.mpr hq
          rw [hret] at this
          cases this
        · exact ⟨e, her, hq⟩

/-- Child links along which a numbering decreases are acyclic. -/
theorem ChildLinksAcyclic_of_rank (m : Versions) (rank : VersionName → Nat)
    (hrank : ∀ n d c, Versions.find m n = some d → c ∈ d.children → rank c < rank n) :
    ChildLinksAcyclic m := by
  have hdesc : ∀ n v, Descendant m n v → rank v < rank n := by
    intro n v h
    induction h with
    | child n d c hn hc => exact hrank n d c hn hc
    | step n d c v hn hc _ ih =>
      have := hrank n d c hn hc
      omega
  intro n h
  have := hdesc n n h
  omega

/-- C29: the cycle check helpers.  On a forest whose child links are acyclic and lead to
stored versions, with a depth bound of at least the number of stored versions,
`CheckVersionNotInBranch(n, v)` on a stored `n` terminates, returns or throws
`invalid_parameter`, and throws exactly when `v` is a proper descendant of `n`;
`GetUnorphanGroup(version)` terminates, throws `invalid_parameter` exactly when the name of
`version` is a proper descendant of an orphan recorded under that name, and otherwise
returns the orphan entries keyed by that name, which are exactly the entries of `orphans_`
with that key. -/
theorem cycle_check_helpers (s : StructuredDataVersions) (n v : VersionName) (dn : Details)
    (version : VersionName × Details) (fuel : Nat)
    (hacyclic : ChildLinksAcyclic s.versions_) (hstored : ChildLinksStored s.versions_)
    (hn : s.versions_.find n = some dn)
    (horphans : ∀ entry ∈ s.orphans_, ∃ d, s.versions_.find entry.2 = some d)
    (hfuel : s.versions_.length ≤ fuel) :
    (∃ r, CheckVersionNotInBranch s.versions_ fuel n v = some r ∧
        (r = .threw .invalid_parameter ∨ r = .returned ()) ∧
        (r = .threw .invalid_parameter ↔ Descendant s.versions_ n v)) ∧
      (∃ r, GetUnorphanGroup s fuel version = some r ∧
        (r = .threw .invalid_parameter ↔
          ∃ entry ∈ s.orphans_.equal_range version.1,
            Descendant s.versions_ entry.2 version.1) ∧
        (r ≠ .threw .invalid_parameter → r = .returned (s.orphans_.equal_range version.1))) ∧
      (∀ entry, entry ∈ s.orphans_.equal_range version.1 ↔
        entry ∈ s.orphans_ ∧ entry.1 = version.1) := by
  refine ⟨?_, ?_, ?_⟩
  · exact CheckVersionNotInBranch_spec s.versions_ v hacyclic hstored fuel n dn [] hn
      (by intro a ha; cases ha) List.nodup_nil (by simpa using hfuel)
  · have hcheck : ∀ entry ∈ s.orphans_.equal_range version.1,
        ∃ r, CheckVersionNotInBranch s.versions_ fuel entry.2 version.1 = some r ∧
          (r = .threw .invalid_parameter ∨ r = .returned ()) ∧
          (r = .threw .invalid_parameter ↔ Descendant s.versions_ entry.2 version.1) := by
      intro entry hentry
      have hmem : entry ∈ s.orphans_ := (List.mem_filter.mp hentry).1
      obtain ⟨d, hd⟩ := horphans entry hmem
      exact CheckVersionNotInBranch_spec s.versions_ version.1 hacyclic hstored fuel entry.2 d
        [] hd (by intro a ha; cases ha) List.nodup_nil (by simpa using hfuel)
    obtain ⟨r, hr, hkind, hiff⟩ :=
      CheckOrphans_spec
        (fun orphan => CheckVersionNotInBranch s.versions_ fuel orphan version.1)
        (fun orphan => Descendant s.versions_ orphan version.1)
        (s.orphans_.equal_range version.1) hcheck
    unfold GetUnorphanGroup
    simp only [hr]
    rcases hkind with hthrew | hret
    · rw [hthrew]
      refine ⟨_, rfl, ?_, ?_⟩
      · simp only [true_iff]
        exact hiff.mp hthrew
      · intro hne
        exact absurd rfl hne
    · rw [hret]
      refine ⟨_, rfl, ?_, ?_⟩
      · constructor
        · intro h
          cases h
        · intro h
          have := hiff.mpr h
          rw [hret] at this
          cases this
      · intro _
        rfl
  · intro entry
    simp [Orphans.equal_range, List.mem_filter]

/-- Witness for C29: in the forest where the orphan `1-b` (waiting for `0-a`) has the child
`2-c`, the check of `1-b` against `2-c` throws, the check of `1-b` against `0-a` returns, and
`GetUnorphanGroup` for `0-a` returns the entry of `1-b`. -/
theorem cycle_check_helpers_witness :
    CheckVersionNotInBranch forest_orphan_branch.versions_ 2 name_1_b name_2_c =
        some (.threw .invalid_parameter) ∧
      CheckVersionNotInBranch forest_orphan_branch.versions_ 2 name_1_b name_0_a =
        some (.returned ()) ∧
      GetUnorphanGroup forest_orphan_branch 2 (name_0_a, Details.ctor) =
        some (.returned [(name_0_a, name_1_b)]) ∧
      Descendant forest_orphan_branch.versions_ name_1_b name_2_c ∧
      ∃ r, CheckVersionNotInBranch forest_orphan_branch.versions_ 2 name_1_b name_2_c =
          some r ∧
        (r = .threw .invalid_parameter ∨ r = .returned ()) ∧
        (r = .threw .invalid_parameter ↔
          Descendant forest_orphan_branch.versions_ name_1_b name_2_c) := by
  have hfind : ∀ n d, forest_orphan_branch.versions_.find n = some d →
      (n = name_1_b ∧ d = { parent := none, children := [name_2_c] }) ∨
        (n = name_2_c ∧ d = { parent := some name_1_b, children := [] }) := by
    intro n d hn
    simp only [forest_orphan_branch, Versions.find] at hn
    split at hn
    · rename_i hkey
      cases hn
      exact Or.inl ⟨hkey.symm, rfl⟩
    · split at hn
      · rename_i hkey
        cases hn
        exact Or.inr ⟨hkey.symm, rfl⟩
      · cases hn
  have hacyclic : ChildLinksAcyclic forest_orphan_branch.versions_ := by
    apply ChildLinksAcyclic_of_rank _ (fun x => if x = name_1_b then 1 else 0)
    intro n d c hn hc
    rcases hfind n d hn with ⟨hn1, hd⟩ | ⟨hn1, hd⟩
    · rw [hd] at hc
      have hc2 : c = name_2_c := by simpa using hc
      rw [hc2, hn1]
      decide
    · rw [hd] at hc
      cases hc
  have hstored : ChildLinksStored forest_orphan_branch.versions_ := by
    intro n d c hn hc
    rcases hfind n d hn with ⟨_, hd⟩ | ⟨_, hd⟩
    · rw [hd] at hc
      have hc2 : c = name_2_c := by simpa using hc
      rw [hc2]
      exact ⟨_, rfl⟩
    · rw [hd] at hc
      cases hc
  have horphans : ∀ entry ∈ forest_orphan_branch.orphans_,
      ∃ d, forest_orphan_branch.versions_.find entry.2 = some d := by
    intro entry hentry
    have he : entry = (name_0_a, name_1_b) := by simpa [forest_orphan_branch] using hentry
    rw [he]
    exact ⟨_, rfl⟩
  exact ⟨rfl, rfl, rfl, Descendant.child name_1_b _ name_2_c rfl (by simp),
    (cycle_check_helpers forest_orphan_branch name_1_b name_2_c
      { parent := none, children := [name_2_c] } (name_0_a, Details.ctor) 2
      hacyclic hstored rfl horphans (by decide)).1⟩

/-! ## Claims on the constructors and the derived comparison operators -/

/-- The order on version names is asymmetric. -/
theorem VersionName.lt_asymm (a b : VersionName) (hab : VersionName.lt a b = true) :
    VersionName.lt b a = false := by
  cases h : VersionName.lt b a with
  | false => rfl
  | true =>
    have haa := VersionName.lt_trans a b a hab h
    rw [VersionName.lt_irrefl] at haa
    cases haa

/-- C31: the sentinel index is unreachable by explicit construction.  `VersionName()` has
index `2^64 - 1` and an uninitialised id; `VersionName(index_in, id_in)` has an index of at
most `2^32 - 1`, equal to `index_in` for every 32-bit `index_in`; hence
`VersionName(index_in, id_in) < VersionName()` and `VersionName(index_in, id_in) !=
VersionName()`, whatever the ids are. -/
theorem sentinel_index_unreachable (index_in : Nat) (id_in : Identity) :
    VersionName.default_ctor.index = 2 ^ 64 - 1 ∧
      VersionName.default_ctor.id.IsInitialised = false ∧
      (VersionName.ctor index_in id_in).index ≤ 2 ^ 32 - 1 ∧
      (index_in < 2 ^ 32 → (VersionName.ctor index_in id_in).index = index_in) ∧
      VersionName.lt (VersionName.ctor index_in id_in) VersionName.default_ctor = true ∧
      VersionName.ne (VersionName.ctor index_in id_in) VersionName.default_ctor = true := by
  have h32 : (2 : Nat) ^ 32 = 4294967296 := by norm_num
  have h64 : (2 : Nat) ^ 64 = 18446744073709551616 := by norm_num
  have hmod : index_in % 2 ^ 32 < 2 ^ 32 := Nat.mod_lt _ (by norm_num)
  have hindex : (VersionName.ctor index_in id_in).index < VersionName.default_ctor.index := by
    simp only [VersionName.ctor, VersionName.default_ctor]
    omega
  refine ⟨rfl, rfl, ?_, ?_, ?_, ?_⟩
  · simp only [VersionName.ctor]
    omega
  · intro hlt
    simp only [VersionName.ctor]
    exact Nat.mod_eq_of_lt hlt
  · exact (VersionName.lt_iff _ _).mpr (Or.inl hindex)
  · have hne : VersionName.ctor index_in id_in ≠ VersionName.default_ctor := by
      intro heq
      rw [heq] at hindex
      omega
    cases heq : VersionName.eq (VersionName.ctor index_in id_in) VersionName.default_ctor with
    | false => simp [VersionName.ne, heq]
    | true => exact absurd ((VersionName.eq_iff _ _).mp heq) hne

/-- Witness for C31: `VersionName(2^32 - 1, uninitialised id)`, the largest index with the
id of the sentinel, is below `VersionName()` and different from it. -/
theorem sentinel_index_unreachable_witness :
    (VersionName.ctor (2 ^ 32 - 1) none).index = 2 ^ 32 - 1 ∧
      VersionName.lt (VersionName.ctor (2 ^ 32 - 1) none) VersionName.default_ctor = true ∧
      VersionName.ne (VersionName.ctor (2 ^ 32 - 1) none) VersionName.default_ctor = true :=
  ⟨(sentinel_index_unreachable (2 ^ 32 - 1) none).2.2.2.1 (by norm_num),
    (sentinel_index_unreachable (2 ^ 32 - 1) none).2.2.2.2.1,
    (sentinel_index_unreachable (2 ^ 32 - 1) none).2.2.2.2.2⟩

/-- C32: the derived comparison operators agree with `<` and `==`.  `a > b` iff `b < a`;
`a <= b` iff `a < b` or `a == b`; `a >= b` iff `b < a` or `a == b`; and `a <= b` together
with `b <= a` gives `a == b`. -/
theorem derived_comparisons_agree (a b : VersionName) :
    (VersionName.gt a b = true ↔ VersionName.lt b a = true) ∧
      (VersionName.le a b = true ↔ VersionName.lt a b = true ∨ VersionName.eq a b = true) ∧
      (VersionName.ge a b = true ↔ VersionName.lt b a = true ∨ VersionName.eq a b = true) ∧
      (VersionName.le a b = true → VersionName.le b a = true → VersionName.eq a b = true) := by
  have hnot : ∀ x y : VersionName, VersionName.lt x y = false →
      VersionName.lt y x = true ∨ VersionName.eq x y = true := by
    intro x y hxy
    cases hyx : VersionName.lt y x with
    | true => exact Or.inl rfl
    | false =>
      exact Or.inr ((VersionName.eq_iff x y).mpr (VersionName.eq_of_not_lt x y hxy hyx))
  have hconv : ∀ x y : VersionName,
      VersionName.lt y x = true ∨ VersionName.eq x y = true → VersionName.lt x y = false := by
    intro x y h
    rcases h with h | h
    · exact VersionName.lt_asymm y x h
    · rw [(VersionName.eq_iff x y).mp h]
      exact VersionName.lt_irrefl y
  have heq_symm : ∀ x y : VersionName,
      VersionName.eq x y = true → VersionName.eq y x = true := by
    intro x y h
    exact (VersionName.eq_iff y x).mpr ((VersionName.eq_iff x y).mp h).symm
  refine ⟨Iff.rfl, ?_, ?_, ?_⟩
  · simp only [VersionName.le, VersionName.gt, Bool.not_eq_true']
    constructor
    · intro h
      rcases hnot b a h with h1 | h1
      · exact Or.inl h1
      · exact Or.inr (heq_symm b a h1)
    · intro h
      apply hconv b a
      rcases h with h1 | h1
      · exact Or.inl h1
      · exact Or.inr (heq_symm a b h1)
  · simp only [VersionName.ge, Bool.not_eq_true']
    exact ⟨hnot a b, hconv a b⟩
  · simp only [VersionName.le, VersionName.gt, Bool.not_eq_true']
    intro hba hab
    exact (VersionName.eq_iff a b).mpr (VersionName.eq_of_not_lt a b hab hba)

/-- Witness for C32: `0-a <= 0-a` in both directions gives `0-a == 0-a`. -/
theorem derived_comparisons_agree_witness :
    VersionName.le name_0_a name_0_a = true ∧ VersionName.eq name_0_a name_0_a = true :=
  ⟨by decide, (derived_comparisons_agree name_0_a name_0_a).2.2.2 (by decide) (by decide)⟩

/-! ## The process manager -/

/-- The element just appended is found at the old length. -/
theorem ProcessManager.emplace_end_get (s : ProcessManager) (vault_info : VaultInfo) :
    (s.emplace_end vault_info).vaults_[s.vaults_.length]? = some vault_info := by
  simp [ProcessManager.emplace_end]

/-- Replacing the element just appended. -/
theorem ProcessManager.emplace_end_set (s : ProcessManager) (vault_info last : VaultInfo) :
    (s.emplace_end vault_info).vaults_.set s.vaults_.length last = s.vaults_ ++ [last] := by
  simp [ProcessManager.emplace_end, List.set_append]

/-- C33: `AddProcess` validates before it adds.  With an empty `chunkstore_path` or empty
`process_args` the call throws `invalid_parameter`; otherwise, when the vault's process is
reported as running, it throws `already_initialised`; in both cases the list of vaults is as
before and no process has been started.  When neither holds, `vault_info` is appended as the
last element and `StartProcess` is run on it: afterwards the list is the old one followed by
one element that equals `vault_info` in every member but `process`, and equals it altogether
when `stop_process` is set (no process is started then). -/
theorem add_process_validates_before_adding (process_IsRunning : Process → Option Bool)
    (execute : String → List String → Option Process) (s : ProcessManager)
    (vault_info : VaultInfo) :
    ((vault_info.chunkstore_path.isEmpty = true ∨ vault_info.process_args.isEmpty = true) →
        ProcessManager.AddProcess process_IsRunning execute s vault_info =
          .threw .invalid_parameter s) ∧
      (vault_info.chunkstore_path.isEmpty = false → vault_info.process_args.isEmpty = false →
        IsRunning process_IsRunning vault_info = true →
        ProcessManager.AddProcess process_IsRunning execute s vault_info =
          .threw .already_initialised s) ∧
      (vault_info.chunkstore_path.isEmpty = false → vault_info.process_args.isEmpty = false →
        IsRunning process_IsRunning vault_info = false →
        (s.emplace_end vault_info).vaults_ = s.vaults_ ++ [vault_info] ∧
          ProcessManager.AddProcess process_IsRunning execute s vault_info =
            ProcessManager.StartProcess execute (s.emplace_end vault_info) s.vaults_.length ∧
          ∃ after last,
            (ProcessManager.AddProcess process_IsRunning execute s vault_info).object? =
              some after ∧
            after.vaults_ = s.vaults_ ++ [last] ∧
            last = { vault_info with process := last.process } ∧
            (vault_info.stop_process = true →
              last = vault_info ∧ after.started = s.started)) := by
  refine ⟨?_, ?_, ?_⟩
  · intro hempty
    unfold ProcessManager.AddProcess
    rcases hempty with h | h <;> simp [h]
  · intro hpath hargs hrunning
    unfold ProcessManager.AddProcess
    simp [hpath, hargs, hrunning]
  · intro hpath hargs hrunning
    have hadd : ProcessManager.AddProcess process_IsRunning execute s vault_info =
        ProcessManager.StartProcess execute (s.emplace_end vault_info) s.vaults_.length := by
      unfold ProcessManager.AddProcess
      simp [hpath, hargs, hrunning]
    refine ⟨rfl, hadd, ?_⟩
    rw [hadd]
    unfold ProcessManager.StartProcess
    rw [ProcessManager.emplace_end_get]
    obtain ⟨path, args, process, stop, connection⟩ := vault_info
    simp only at hargs ⊢
    cases stop with
    | true =>
      refine ⟨s.emplace_end (VaultInfo.mk path args process true connection),
        VaultInfo.mk path args process true connection, rfl, rfl, rfl, ?_⟩
      intro _
      exact ⟨rfl, rfl⟩
    | false =>
      cases args with
      | nil => simp at hargs
      | cons executable rest =>
        cases hexec : execute executable (executable :: rest) with
        | none =>
          refine ⟨s.emplace_end (VaultInfo.mk path (executable :: rest) process false connection),
            VaultInfo.mk path (executable :: rest) process false connection, ?_, rfl, rfl, ?_⟩
          · simp only [Bool.not_false, if_true, List.head?_cons, hexec]
            rfl
          · intro h
            cases h
        | some child =>
          refine ⟨ProcessManager.mk
              ((s.emplace_end
                (VaultInfo.mk path (executable :: rest) process false connection)).vaults_.set
                s.vaults_.length (VaultInfo.mk path (executable :: rest) child false connection))
              (s.started ++ [child]),
            VaultInfo.mk path (executable :: rest) child false connection, ?_, ?_, rfl, ?_⟩
          · simp only [Bool.not_false, if_true, List.head?_cons, hexec]
            rfl
          · exact ProcessManager.emplace_end_set s _ _
          · intro h
            cases h

/-- Witness for C33: on the freshly constructed manager, a vault without chunkstore path is
rejected with `invalid_parameter`, a vault reported as running is rejected with
`already_initialised`, and a vault that passes both tests is appended and started. -/
theorem add_process_validates_before_adding_witness :
    ProcessManager.AddProcess (fun _ => some false) (fun _ _ => some { pid := 42 })
        ProcessManager.ctor vault_no_chunkstore = .threw .invalid_parameter ProcessManager.ctor ∧
      ProcessManager.AddProcess (fun _ => some true) (fun _ _ => some { pid := 42 })
        ProcessManager.ctor vault_ready = .threw .already_initialised ProcessManager.ctor ∧
      ProcessManager.AddProcess (fun _ => some false) (fun _ _ => some { pid := 42 })
        ProcessManager.ctor vault_ready =
        .returned { vaults_ := [{ vault_ready with process := { pid := 42 } }]
                    started := [{ pid := 42 }] } ∧
      ∃ after last,
        (ProcessManager.AddProcess (fun _ => some false) (fun _ _ => some { pid := 42 })
          ProcessManager.ctor vault_ready).object? = some after ∧
        after.vaults_ = ProcessManager.ctor.vaults_ ++ [last] ∧
        last = { vault_ready with process := last.process } ∧
        (vault_ready.stop_process = true →
          last = vault_ready ∧ after.started = ProcessManager.ctor.started) :=
  ⟨(add_process_validates_before_adding (fun _ => some false) (fun _ _ => some { pid := 42 })
      ProcessManager.ctor vault_no_chunkstore).1 (Or.inl (by decide)),
    (add_process_validates_before_adding (fun _ => some true) (fun _ _ => some { pid := 42 })
      ProcessManager.ctor vault_ready).2.1 (by decide) (by decide) (by decide),
    by decide,
    ((add_process_validates_before_adding (fun _ => some false) (fun _ _ => some { pid := 42 })
      ProcessManager.ctor vault_ready).2.2 (by decide) (by decide) (by decide)).2.2⟩

end maidsafe
